import Mathlib

/-!
Verification of `todos/_done/reorder_index.py`.

The script is embedded shallowly: strings are lists of characters
(`Str := List Char`), each Python helper or module-level computation
becomes a Lean definition with the same name where possible, and the
whole run becomes the pure function `reorder : Str → Except Str RunOutput`
from the original file text to either a fatal message (`SystemExit`) or
the rewritten text plus the console line.  A fatal abort happens before
the file write, so `finalFileText` returns the original text in that case.

Modelling domain: documents are modelled over characters whose line
breaks are `\n`, `\r\n`, `\r`, `\x0b`, `\x0c` and whose whitespace is
ASCII (space, tab, and those breaks); the Unicode-only separators
(`\x1c`-`\x1e`, `\x85`, `\u2028`, `\u2029`) and Unicode digits/whitespace
accepted by CPython are outside the model.  Python `int` parsing is
modelled with sign and underscore handling on ASCII digits.
-/

abbrev Str := List Char

/-- Python `str` whitespace (ASCII fragment): the characters removed by
`strip`/`rstrip`. -/
def isSpaceChar (c : Char) : Bool :=
  c = ' ' || c = '\t' || c = '\n' || c = '\r' || c = '\x0b' || c = '\x0c'

/-- Characters at which `str.splitlines` breaks a line (besides the
two-character break `\r\n`). -/
def isBreakChar (c : Char) : Bool :=
  c = '\n' || c = '\r' || c = '\x0b' || c = '\x0c'

/-- Python `s.lstrip()`. -/
def pyLstrip (s : Str) : Str := s.dropWhile isSpaceChar

/-- Python `s.rstrip()`. -/
def pyRstrip (s : Str) : Str := (s.reverse.dropWhile isSpaceChar).reverse

/-- Python `s.strip()`. -/
def pyStrip (s : Str) : Str := pyLstrip (pyRstrip s)

/-- Python `s.lower()` (ASCII). -/
def pyLower (s : Str) : Str := s.map Char.toLower

/-- Python `s.splitlines()`: split at line breaks, treating `\r\n` as a
single break, with no trailing empty line for a terminal break. -/
def splitlines : Str → List Str
  | [] => []
  | '\r' :: '\n' :: rest => [] :: splitlines rest
  | c :: rest =>
    if isBreakChar c then [] :: splitlines rest
    else
      match splitlines rest with
      | [] => [[c]]
      | l :: ls => (c :: l) :: ls

/-- Python `'\n'.join(ls)`. -/
def joinNL : List Str → Str
  | [] => []
  | [l] => l
  | l :: rest => l ++ '\n' :: joinNL rest

/-- Python `'\n\n'.join(ls)`. -/
def joinBlankSep : List Str → Str
  | [] => []
  | [t] => t
  | t :: rest => t ++ '\n' :: '\n' :: joinBlankSep rest

/-- Value of a string of decimal digits (underscores ignored by the
caller before use). -/
def digitsVal (s : Str) : Nat :=
  s.foldl (fun a c => a * 10 + (c.toNat - 48)) 0

/-- Python `s.isdigit()` (ASCII): nonempty and all decimal digits. -/
def isdigitStr (s : Str) : Bool :=
  !s.isEmpty && s.all Char.isDigit

/-- After the first character, the body of a Python integer literal:
digits with single underscores allowed between digits. -/
def intDigitsTail : Str → Bool
  | [] => true
  | '_' :: rest =>
    match rest with
    | [] => false
    | d :: rest2 => d.isDigit && intDigitsTail rest2
  | c :: rest => c.isDigit && intDigitsTail rest

/-- The digit part of a Python integer literal: nonempty, starts with a
digit, underscores only between digits. -/
def intDigitsOk : Str → Bool
  | [] => false
  | c :: rest => c.isDigit && intDigitsTail rest

/-- Helper for `pyInt`: parse an unsigned digit string (with possible
underscores) or fail. -/
def pyIntDigits (r : Str) : Option Nat :=
  if intDigitsOk r then some (digitsVal (r.filter (fun c => c ≠ '_'))) else none

/-- Python `int(s)` for `str` input: surrounding whitespace stripped, an
optional single sign, then decimal digits with underscore grouping;
`ValueError` becomes `none`. -/
def pyInt (s : Str) : Option Int :=
  match pyStrip s with
  | [] => none
  | c :: r =>
    if c = '+' then (pyIntDigits r).map Int.ofNat
    else if c = '-' then (pyIntDigits r).map (fun n => -(Int.ofNat n : Int))
    else (pyIntDigits (c :: r)).map Int.ofNat

/-- Python `filename.split('_', 1)[0]`: the part before the first
underscore (the whole string when there is none). -/
def planSplitUnderscore (s : Str) : Str :=
  s.takeWhile (fun c => c ≠ '_')

/-- Python `prefix.rsplit('-', 1)` as a pair `(date_part, time_part)`;
the caller has checked that at least one `-` occurs. -/
def rsplitHyphen (s : Str) : Str × Str :=
  (((s.reverse.dropWhile (fun c => c ≠ '-')).tail).reverse,
    (s.reverse.takeWhile (fun c => c ≠ '-')).reverse)

/-- Python `date_part.split('-', 2)` as a triple; the caller has checked
that `date_part` contains at least two `-`, so exactly three pieces
result (the third keeps any further hyphens). -/
def splitHyphen2 (s : Str) : Str × Str × Str :=
  let p1 := s.takeWhile (fun c => c ≠ '-')
  let r1 := (s.dropWhile (fun c => c ≠ '-')).tail
  (p1, r1.takeWhile (fun c => c ≠ '-'), (r1.dropWhile (fun c => c ≠ '-')).tail)

def amStr : Str := ['a', 'm']
def pmStr : Str := ['p', 'm']

/-- `parse_plan_timestamp` from the script: 4-tuple
`(year, month, day, hour24)` or `None`.  `endswith(('am','pm'))` is
expressed as the last two characters being `am` or `pm`, which is
equivalent for every string. -/
def parse_plan_timestamp (filename : Str) : Option (Int × Int × Int × Int) :=
  let pfx := planSplitUnderscore filename
  if pfx.count '-' < 3 then none
  else
    let date_part := (rsplitHyphen pfx).1
    let time_part := (rsplitHyphen pfx).2
    match pyInt (splitHyphen2 date_part).1 with
    | none => none
    | some year =>
      match pyInt (splitHyphen2 date_part).2.1 with
      | none => none
      | some month =>
        match pyInt (splitHyphen2 date_part).2.2 with
        | none => none
        | some day =>
          let tl := pyLower time_part
          let meridiem := tl.drop (tl.length - 2)
          if meridiem = amStr ∨ meridiem = pmStr then
            let hour_str := tl.take (tl.length - 2)
            if isdigitStr hour_str then
              let hour := digitsVal hour_str
              if hour < 1 ∨ 12 < hour then none
              else if meridiem = amStr then
                some (year, month, day, Int.ofNat (if hour = 12 then 0 else hour))
              else
                some (year, month, day, Int.ofNat (if hour = 12 then 12 else hour + 12))
            else none
          else none

def entriesStr : Str := ['E', 'n', 't', 'r', 'i', 'e', 's']

/-- The line marker `- Plan: ` that starts a block. -/
def planMarker : Str := ['-', ' ', 'P', 'l', 'a', 'n', ':', ' ']

/-- The loop that finds the first line whose stripped content is
`Entries` (`entries_index` in the script). -/
def entries_index (lines : List Str) : Option Nat :=
  lines.findIdx? (fun l => pyStrip l == entriesStr)

/-- `set(line.strip()) == {'='}`: the stripped line is nonempty and all
`=`. -/
def isUnderlineLine (l : Str) : Bool :=
  !(pyStrip l).isEmpty && (pyStrip l).all (fun c => c = '=')

/-- `body_start`: skip an optional underline directly after `Entries`. -/
def body_start (lines : List Str) (ei : Nat) : Nat :=
  if ei + 1 < lines.length ∧ isUnderlineLine (lines.getD (ei + 1) []) = true then ei + 2
  else ei + 1

/-- The block-splitting loop: a line with the `- Plan: ` marker starts a
new block; other lines extend the current block; lines before the first
marker are discarded. -/
def splitBlocksGo : List Str → List Str → List (List Str)
  | [], current => if current = [] then [] else [current]
  | line :: rest, current =>
    if planMarker.isPrefixOf line then
      if current = [] then splitBlocksGo rest [line]
      else current :: splitBlocksGo rest [line]
    else
      if current = [] then splitBlocksGo rest []
      else splitBlocksGo rest (current ++ [line])

/-- `first_line.split(':', 1)[1].strip()`: the plan identifier of a
block (the block's first line always contains `:` since it carries the
marker). -/
def planOf (block : List Str) : Str :=
  pyStrip (((block.headD []).dropWhile (fun c => c ≠ ':')).tail)

/-- One element of `plan_entries`: `(timestamp, original index, block
text)`. -/
abbrev Entry := Option (Int × Int × Int × Int) × Nat × Str

/-- `plan_entries` before sorting. -/
def plan_entries (blocks : List (List Str)) : List Entry :=
  blocks.enum.map (fun p => (parse_plan_timestamp (planOf p.2), p.1, pyRstrip (joinNL p.2)))

/-- `invalid_plans`: the plan identifiers whose timestamp is not
parseable, in block order. -/
def invalid_plans (blocks : List (List Str)) : List Str :=
  (blocks.map planOf).filter (fun p => (parse_plan_timestamp p).isNone)

/-- The sort key of the script: negated timestamp components (0 for a
missing timestamp, which validation makes unreachable) then the original
index. -/
def sortKey (e : Entry) : Int × Int × Int × Int × Nat :=
  match e.1 with
  | some t => (-t.1, -t.2.1, -t.2.2.1, -t.2.2.2, e.2.1)
  | none => (0, 0, 0, 0, e.2.1)

/-- Lexicographic order on sort keys: the order `list.sort(key=...)`
sorts by. -/
def keyLE (a b : Int × Int × Int × Int × Nat) : Prop :=
  a.1 < b.1 ∨ (a.1 = b.1 ∧ (a.2.1 < b.2.1 ∨ (a.2.1 = b.2.1 ∧
    (a.2.2.1 < b.2.2.1 ∨ (a.2.2.1 = b.2.2.1 ∧
      (a.2.2.2.1 < b.2.2.2.1 ∨ (a.2.2.2.1 = b.2.2.2.1 ∧ a.2.2.2.2 ≤ b.2.2.2.2)))))))

/-- The comparison `plan_entries.sort` uses.  Since every entry carries
a distinct original index the order is total and antisymmetric on any
entry list the script builds, so the stable `list.sort` result equals
the result of any correct sort; we embed it as insertion sort. -/
def entryLE (a b : Entry) : Prop := keyLE (sortKey a) (sortKey b)

instance : ∀ a b, Decidable (keyLE a b) := fun _ _ => by
  unfold keyLE; exact inferInstance

instance : ∀ a b, Decidable (entryLE a b) := fun _ _ => by
  unfold entryLE; exact inferInstance

instance : IsTotal Entry entryLE :=
  ⟨fun a b => by unfold entryLE keyLE; omega⟩

instance : IsTrans Entry entryLE :=
  ⟨fun a b c => by unfold entryLE keyLE; omega⟩

/-- Decimal digits of `n`, most significant first (the rendering used by
`f'{moved}'`). -/
def natDecimalGo : Nat → Nat → Str → Str
  | 0, _, acc => acc
  | fuel + 1, n, acc =>
    let d := Char.ofNat (48 + n % 10)
    if n < 10 then d :: acc else natDecimalGo fuel (n / 10) (d :: acc)

def natDecimal (n : Nat) : Str := natDecimalGo (n + 1) n []

def noChangesMsg : Str :=
  "Reorder index: no changes (entries already in order).".data

def movedMsgStart : Str :=
  "Reorder index: updated order. Sections moved: ".data

/-- The success message `f'Reorder index: updated order. Sections moved:
{moved}.'`. -/
def movedMsg (n : Nat) : Str := movedMsgStart ++ natDecimal n ++ ['.']

def entriesMissingMsg : Str :=
  "Entries heading not found in INDEX.txt".data

def invalidMsgStart : Str :=
  ("Invalid plan filename(s) in todos/_done/INDEX.txt. Expected format " ++
    "`YYYY-MM-DD-<h>am|pm_<name>` (e.g., `2026-01-28-1pm_example.txt`).\n").data

/-- The batched `SystemExit` message for invalid plans: description and
example, then each offending identifier as `- <plan>` on its own line. -/
def invalidMsg (plans : List Str) : Str :=
  invalidMsgStart ++ joinNL (plans.map (fun p => '-' :: ' ' :: p))

/-- `body_start` applied to the document (0 is a dummy for the missing
heading case, in which the script has already aborted). -/
def docBodyStart (text : Str) : Nat :=
  match entries_index (splitlines text) with
  | some ei => body_start (splitlines text) ei
  | none => 0

def docHeaderLines (text : Str) : List Str :=
  (splitlines text).take (docBodyStart text)

def docBodyLines (text : Str) : List Str :=
  (splitlines text).drop (docBodyStart text)

def docBlocks (text : Str) : List (List Str) :=
  splitBlocksGo (docBodyLines text) []

def docEntries (text : Str) : List Entry :=
  plan_entries (docBlocks text)

/-- `plan_entries` after `plan_entries.sort(key=...)`. -/
def docSorted (text : Str) : List Entry :=
  List.insertionSort entryLE (docEntries text)

def docOrderedBlocks (text : Str) : List Str :=
  (docSorted text).map (fun e => e.2.2)

def docOriginalBlocks (text : Str) : List Str :=
  (docBlocks text).map (fun b => pyRstrip (joinNL b))

def docHeaderText (text : Str) : Str :=
  pyRstrip (joinNL (docHeaderLines text))

/-- `new_text = header_text + '\n\n' + '\n\n'.join(ordered_blocks) +
'\n'`. -/
def docNewText (text : Str) : Str :=
  docHeaderText text ++ '\n' :: '\n' :: (joinBlankSep (docOrderedBlocks text) ++ ['\n'])

/-- `moved`: the number of positions whose block text differs between
`original_blocks` and `ordered_blocks` (the two lists always have equal
length on the success path). -/
def movedCount (origBlocks orderedBlocks : List Str) : Nat :=
  (List.range origBlocks.length).countP
    (fun i => !(orderedBlocks.getD i [] == origBlocks.getD i []))

def docMovedCount (text : Str) : Nat :=
  movedCount (docOriginalBlocks text) (docOrderedBlocks text)

/-- The single console line printed on success. -/
def docConsole (text : Str) : Str :=
  if text = docNewText text then noChangesMsg
  else movedMsg (docMovedCount text)

structure RunOutput where
  newText : Str
  console : Str
deriving DecidableEq

/-- The whole script run on the file's text.  `SystemExit` aborts become
`Except.error`; on success the file is overwritten with `newText`
unconditionally and `console` is printed.  (The script's unused
`original_entries` binding after the sort is dropped.) -/
def reorder (text : Str) : Except Str RunOutput :=
  match entries_index (splitlines text) with
  | none => Except.error entriesMissingMsg
  | some _ =>
    if invalid_plans (docBlocks text) = [] then
      Except.ok ⟨docNewText text, docConsole text⟩
    else Except.error (invalidMsg (invalid_plans (docBlocks text)))

/-- File content after the run: the write happens only on the success
path (both `SystemExit`s are raised before `write_text`). -/
def finalFileText (text : Str) : Str :=
  match reorder text with
  | Except.ok o => o.newText
  | Except.error _ => text

/-- Strict lexicographic order on timestamp tuples: `t` is earlier than
`u`. -/
def tupLexLT (t u : Int × Int × Int × Int) : Prop :=
  t.1 < u.1 ∨ (t.1 = u.1 ∧ (t.2.1 < u.2.1 ∨ (t.2.1 = u.2.1 ∧
    (t.2.2.1 < u.2.2.1 ∨ (t.2.2.1 = u.2.2.1 ∧ t.2.2.2 < u.2.2.2)))))

/-- The text ends with a newline and that newline is not preceded by
another one. -/
def oneTrailingNewline (s : Str) : Prop :=
  s.getLast? = some '\n' ∧ s.dropLast.getLast? ≠ some '\n'

/-! Proof auxiliaries: combinators describing the shape of the rewritten
document, used to state and prove structure lemmas. -/

/-- Auxiliary for `stripTrail`: walks the reversed line list. -/
def stripTrailRev : List Str → List Str
  | [] => []
  | l :: rest => if pyRstrip l = [] then stripTrailRev rest else pyRstrip l :: rest

/-- The effect of `rstrip` on a newline-join, at the line level: drop
trailing whitespace-only lines, and `rstrip` the last remaining line. -/
def stripTrail (B : List Str) : List Str := (stripTrailRev B.reverse).reverse

/-- The lines of several line lists separated by single blank lines
(the shape of the rewritten body). -/
def sepLines : List (List Str) → List Str
  | [] => []
  | [p] => p
  | p :: rest => p ++ [] :: sepLines rest

/-- Each line list extended by the blank separator that follows it in
the rewritten body (the last one has none). -/
def withSeps : List (List Str) → List (List Str)
  | [] => []
  | [p] => [p]
  | p :: rest => (p ++ [[]]) :: withSeps rest

/-- Invariant of the block-splitting loop: a block is nonempty, starts
with a `- Plan: ` line and continues with non-marker lines. -/
def GoodBlock (b : List Str) : Prop :=
  b ≠ [] ∧ planMarker.isPrefixOf (b.headD []) = true ∧
    ∀ l ∈ b.tail, planMarker.isPrefixOf l = false

/-! Concrete documents used by witnesses and the counterexample. -/

def wdoc1 : Str :=
  ("Notes\n\nEntries\n====\n\n- Plan: 2025-06-01-9am_a.txt\n" ++
    "- Plan: 2026-01-28-1pm_b.txt\n  cont\n- Plan: 2026-01-28-1pm_c.txt\n").data

def wdoc2 : Str :=
  "Entries\n- Plan: weird_name\n- Plan: 2026-02-30-13pm_x\n".data

def wdoc3 : Str := "hello\nworld\n".data

def c4doc : Str := "Entries\n".data

/-! ### Lemmas and claim theorems -/

theorem head?_dropWhile_not (p : Char → Bool) (l : Str) :
    ∀ c, (l.dropWhile p).head? = some c → p c = false := by
  induction l with
  | nil => intro c h; simp at h
  | cons d t ih =>
    intro c h
    by_cases hd : p d
    · rw [List.dropWhile_cons_of_pos hd] at h; exact ih c h
    · rw [List.dropWhile_cons_of_neg hd] at h
      simp only [List.head?_cons, Option.some.injEq] at h
      subst h; exact Bool.eq_false_iff.mpr hd

theorem pyRstrip_eq_nil_iff {s : Str} :
    pyRstrip s = [] ↔ ∀ c ∈ s, isSpaceChar c = true := by
  unfold pyRstrip
  rw [List.reverse_eq_nil_iff, List.dropWhile_eq_nil_iff]
  constructor
  · intro h c hc; exact h c (List.mem_reverse.mpr hc)
  · intro h c hc; exact h c (List.mem_reverse.mp hc)

theorem pyRstrip_append_of_ne {a b : Str} (h : pyRstrip b ≠ []) :
    pyRstrip (a ++ b) = a ++ pyRstrip b := by
  unfold pyRstrip at *
  rw [List.reverse_append, List.dropWhile_append]
  have hne : b.reverse.dropWhile isSpaceChar ≠ [] := by
    intro hh; exact h (by rw [hh]; rfl)
  have hb : (b.reverse.dropWhile isSpaceChar).isEmpty = false := by
    simpa [List.isEmpty_iff] using hne
  rw [hb]
  simp

theorem pyRstrip_append_of_nil {a b : Str} (h : pyRstrip b = []) :
    pyRstrip (a ++ b) = pyRstrip a := by
  unfold pyRstrip at *
  rw [List.reverse_append, List.dropWhile_append]
  have hb : (b.reverse.dropWhile isSpaceChar).isEmpty = true := by
    rw [List.isEmpty_iff]
    exact List.reverse_eq_nil_iff.mp h
  rw [hb]
  simp

theorem pyRstrip_getLast_not_space {s : Str} :
    ∀ c, (pyRstrip s).getLast? = some c → isSpaceChar c = false := by
  intro c h
  unfold pyRstrip at h
  rw [List.getLast?_reverse] at h
  exact head?_dropWhile_not _ _ c h

theorem pyRstrip_eq_self_of {s : Str}
    (h : ∀ c, s.getLast? = some c → isSpaceChar c = false) : pyRstrip s = s := by
  unfold pyRstrip
  rw [← List.head?_reverse] at h
  rcases hs : s.reverse with _ | ⟨d, t⟩
  · simpa using congrArg List.reverse hs.symm
  · rw [List.dropWhile_cons_of_neg, ← hs, List.reverse_reverse]
    have := h d (by rw [hs]; rfl)
    simp [this]

theorem pyRstrip_idem (s : Str) : pyRstrip (pyRstrip s) = pyRstrip s :=
  pyRstrip_eq_self_of (fun c h => pyRstrip_getLast_not_space c h)

theorem pyRstrip_decomp (s : Str) :
    ∃ t, (∀ c ∈ t, isSpaceChar c = true) ∧ s = pyRstrip s ++ t := by
  refine ⟨(s.reverse.takeWhile isSpaceChar).reverse, ?_, ?_⟩
  · intro c hc
    exact List.mem_takeWhile_imp (List.mem_reverse.mp hc)
  · unfold pyRstrip
    rw [← List.reverse_append, List.takeWhile_append_dropWhile, List.reverse_reverse]

theorem mem_of_mem_pyRstrip {s : Str} {c : Char} (h : c ∈ pyRstrip s) : c ∈ s := by
  rcases pyRstrip_decomp s with ⟨t, _, hs⟩
  rw [hs]; exact List.mem_append_left _ h

theorem pyRstrip_prefix_self (s : Str) : pyRstrip s <+: s := by
  rcases pyRstrip_decomp s with ⟨t, _, hs⟩
  exact ⟨t, hs.symm⟩

theorem pyStrip_pyRstrip (s : Str) : pyStrip (pyRstrip s) = pyStrip s := by
  unfold pyStrip
  rw [pyRstrip_idem]

theorem pyStrip_eq_nil_iff {s : Str} :
    pyStrip s = [] ↔ ∀ c ∈ s, isSpaceChar c = true := by
  unfold pyStrip pyLstrip
  rw [List.dropWhile_eq_nil_iff]
  constructor
  · intro h c hc
    by_cases hr : pyRstrip s = []
    · exact pyRstrip_eq_nil_iff.mp hr c hc
    · rcases List.exists_mem_of_ne_nil _ hr with ⟨x, hx⟩
      have hlast := List.getLast?_isSome.mpr hr
      rcases Option.isSome_iff_exists.mp hlast with ⟨d, hd⟩
      have h1 := pyRstrip_getLast_not_space d hd
      have h2 := h d (List.mem_of_mem_getLast? (by rw [hd]; rfl))
      rw [h2] at h1; cases h1
  · intro h c hc
    exact h c (mem_of_mem_pyRstrip hc)

theorem isSpaceChar_of_isBreakChar {c : Char} (h : isBreakChar c = true) :
    isSpaceChar c = true := by
  simp only [isBreakChar, Bool.or_eq_true, decide_eq_true_eq] at h
  simp only [isSpaceChar, Bool.or_eq_true, decide_eq_true_eq]
  tauto

theorem splitlines_crlf (rest : Str) :
    splitlines ('\r' :: '\n' :: rest) = [] :: splitlines rest := rfl

theorem splitlines_break {c : Char} (rest : Str) (h : isBreakChar c = true)
    (h2 : ¬(c = '\r' ∧ rest.head? = some '\n')) :
    splitlines (c :: rest) = [] :: splitlines rest := by
  rw [splitlines.eq_def]
  split
  · rename_i heq
    exact absurd heq (List.cons_ne_nil c rest)
  · rename_i heq
    rw [List.cons.injEq] at heq
    exact absurd ⟨heq.1, by rw [heq.2]; rfl⟩ h2
  · rename_i heq
    rw [List.cons.injEq] at heq
    obtain ⟨rfl, rfl⟩ := heq
    rw [if_pos h]

theorem splitlines_other {c : Char} (rest : Str) (h : isBreakChar c = false) :
    splitlines (c :: rest) =
      match splitlines rest with
      | [] => [[c]]
      | l :: ls => (c :: l) :: ls := by
  rw [splitlines.eq_def]
  split
  · rename_i heq
    exact absurd heq (List.cons_ne_nil c rest)
  · rename_i heq
    rw [List.cons.injEq] at heq
    obtain ⟨rfl, -⟩ := heq
    simp [isBreakChar] at h
  · rename_i heq
    rw [List.cons.injEq] at heq
    obtain ⟨rfl, rfl⟩ := heq
    rw [if_neg]
    rw [h]
    simp

theorem joinNL_cons {l : Str} {ls : List Str} (h : ls ≠ []) :
    joinNL (l :: ls) = l ++ '\n' :: joinNL ls := by
  rcases ls with _ | ⟨x, t⟩
  · exact absurd rfl h
  · rfl

theorem joinNL_append {A B : List Str} (ha : A ≠ []) (hb : B ≠ []) :
    joinNL (A ++ B) = joinNL A ++ '\n' :: joinNL B := by
  induction A with
  | nil => exact absurd rfl ha
  | cons x A ih =>
    rcases A with _ | ⟨y, A'⟩
    · rw [List.singleton_append, joinNL_cons hb]; rfl
    · rw [List.cons_append, joinNL_cons (by simp),
        joinNL_cons (List.cons_ne_nil _ _), ih (List.cons_ne_nil _ _)]
      simp

theorem joinNL_concat {A : List Str} {l : Str} (ha : A ≠ []) :
    joinNL (A ++ [l]) = joinNL A ++ '\n' :: l :=
  joinNL_append ha (List.cons_ne_nil _ _)

theorem joinBlankSep_cons {t : Str} {ts : List Str} (h : ts ≠ []) :
    joinBlankSep (t :: ts) = t ++ '\n' :: '\n' :: joinBlankSep ts := by
  rcases ts with _ | ⟨x, u⟩
  · exact absurd rfl h
  · rfl

theorem splitlines_append_nl {a : Str} (b : Str)
    (h : ∀ c ∈ a, isBreakChar c = false) :
    splitlines (a ++ '\n' :: b) = a :: splitlines b := by
  induction a with
  | nil =>
    rw [List.nil_append, splitlines_break b (by rfl)]
    intro hh
    exact absurd hh.1 (by decide)
  | cons c a ih =>
    rw [List.cons_append, splitlines_other _ (h c (List.mem_cons_self c a)),
      ih (fun x hx => h x (List.mem_cons_of_mem c hx))]

theorem mem_splitlines_no_break {s : Str} :
    ∀ l ∈ splitlines s, ∀ c ∈ l, isBreakChar c = false := by
  induction s using splitlines.induct with
  | case1 =>
    intro l hl
    rw [show splitlines ([] : Str) = [] from rfl] at hl
    cases hl
  | case2 rest ih =>
    rw [splitlines_crlf]
    intro l hl
    rcases List.mem_cons.mp hl with rfl | hl
    · simp
    · exact ih l hl
  | case3 c rest hx h ih =>
    rw [splitlines_break rest h]
    · intro l hl
      rcases List.mem_cons.mp hl with rfl | hl
      · simp
      · exact ih l hl
    · rintro ⟨rfl, hh⟩
      rcases rest with _ | ⟨d, t⟩
      · simp at hh
      · simp only [List.head?_cons, Option.some.injEq] at hh
        exact hx t rfl (by rw [hh])
  | case4 c rest hx h heq ih =>
    rw [splitlines_other rest ((Bool.not_eq_true _) ▸ h), heq]
    intro l hl
    rcases List.mem_cons.mp hl with rfl | hl
    · intro d hd
      rcases List.mem_singleton.mp hd with rfl
      exact (Bool.not_eq_true _) ▸ h
    · cases hl
  | case5 c rest hx h l0 ls0 heq ih =>
    rw [splitlines_other rest ((Bool.not_eq_true _) ▸ h), heq]
    intro l hl
    rcases List.mem_cons.mp hl with rfl | hl
    · intro d hd
      rcases List.mem_cons.mp hd with rfl | hd
      · exact (Bool.not_eq_true _) ▸ h
      · exact ih l0 (by rw [heq]; exact List.mem_cons_self _ _) d hd
    · exact ih l (by rw [heq]; exact List.mem_cons_of_mem _ hl)

theorem splitlines_joinNL_term {L : List Str} (hL : L ≠ [])
    (h : ∀ l ∈ L, ∀ c ∈ l, isBreakChar c = false) :
    splitlines (joinNL L ++ ['\n']) = L := by
  induction L with
  | nil => exact absurd rfl hL
  | cons x L ih =>
    rcases L with _ | ⟨y, L'⟩
    · rw [show joinNL [x] = x from rfl, show x ++ ['\n'] = x ++ '\n' :: [] from rfl,
        splitlines_append_nl [] (h x (List.mem_cons_self _ _))]
      rfl
    · rw [joinNL_cons (List.cons_ne_nil _ _), List.append_assoc, List.cons_append,
        splitlines_append_nl _ (h x (List.mem_cons_self _ _)),
        ih (List.cons_ne_nil _ _) (fun l hl => h l (List.mem_cons_of_mem _ hl))]

theorem stripTrailRev_cons (l : Str) (rest : List Str) :
    stripTrailRev (l :: rest) =
      if pyRstrip l = [] then stripTrailRev rest else pyRstrip l :: rest := rfl

theorem stripTrail_nil : stripTrail [] = [] := rfl

theorem stripTrail_singleton (l : Str) :
    stripTrail [l] = if pyRstrip l = [] then [] else [pyRstrip l] := by
  unfold stripTrail
  rw [List.reverse_singleton, stripTrailRev_cons]
  by_cases hl : pyRstrip l = []
  · rw [if_pos hl, if_pos hl]
    rfl
  · rw [if_neg hl, if_neg hl]
    rfl

theorem stripTrail_concat (B : List Str) (l : Str) :
    stripTrail (B ++ [l]) = if pyRstrip l = [] then stripTrail B else B ++ [pyRstrip l] := by
  unfold stripTrail
  rw [List.reverse_append, List.reverse_singleton, List.singleton_append, stripTrailRev_cons]
  by_cases hl : pyRstrip l = []
  · rw [if_pos hl, if_pos hl]
  · rw [if_neg hl, if_neg hl]
    simp

theorem stripTrailRev_append_of_all {X : List Str} (Y : List Str)
    (h : ∀ l ∈ X, pyRstrip l = []) :
    stripTrailRev (X ++ Y) = stripTrailRev Y := by
  induction X with
  | nil => rfl
  | cons x X ih =>
    rw [List.cons_append, stripTrailRev_cons, if_pos (h x (List.mem_cons_self _ _))]
    exact ih (fun l hl => h l (List.mem_cons_of_mem _ hl))

theorem stripTrailRev_append_of_exists {X : List Str} (Y : List Str)
    (h : ∃ l ∈ X, pyRstrip l ≠ []) :
    stripTrailRev (X ++ Y) = stripTrailRev X ++ Y := by
  induction X with
  | nil => simp at h
  | cons x X ih =>
    by_cases hx : pyRstrip x = []
    · rw [List.cons_append, stripTrailRev_cons, if_pos hx, stripTrailRev_cons, if_pos hx]
      apply ih
      rcases h with ⟨l, hl, hne⟩
      rcases List.mem_cons.mp hl with rfl | hl
      · exact absurd hx hne
      · exact ⟨l, hl, hne⟩
    · rw [List.cons_append, stripTrailRev_cons, if_neg hx, stripTrailRev_cons, if_neg hx]
      rfl

theorem stripTrail_cons_of_exists {b : Str} {rest : List Str}
    (h : ∃ l ∈ rest, pyRstrip l ≠ []) :
    stripTrail (b :: rest) = b :: stripTrail rest := by
  unfold stripTrail
  rw [show (b :: rest).reverse = rest.reverse ++ [b] by simp,
    stripTrailRev_append_of_exists [b] (by
      rcases h with ⟨l, hl, hne⟩
      exact ⟨l, List.mem_reverse.mpr hl, hne⟩)]
  simp

theorem stripTrail_cons_of_all {b : Str} {rest : List Str}
    (h : ∀ l ∈ rest, pyRstrip l = []) :
    stripTrail (b :: rest) = stripTrail [b] := by
  unfold stripTrail
  rw [show (b :: rest).reverse = rest.reverse ++ [b] by simp,
    stripTrailRev_append_of_all [b] (fun l hl => h l (List.mem_reverse.mp hl))]
  rfl

theorem mem_stripTrail {B : List Str} {l' : Str} (h : l' ∈ stripTrail B) :
    ∃ l ∈ B, l' = l ∨ l' = pyRstrip l := by
  unfold stripTrail at h
  rw [List.mem_reverse] at h
  have aux : ∀ (X : List Str), l' ∈ stripTrailRev X → ∃ l ∈ X, l' = l ∨ l' = pyRstrip l := by
    intro X
    induction X with
    | nil => intro hh; cases hh
    | cons x X ih =>
      intro hh
      by_cases hx : pyRstrip x = []
      · rw [stripTrailRev_cons, if_pos hx] at hh
        rcases ih hh with ⟨l, hl, hor⟩
        exact ⟨l, List.mem_cons_of_mem _ hl, hor⟩
      · rw [stripTrailRev_cons, if_neg hx] at hh
        rcases List.mem_cons.mp hh with rfl | hh
        · exact ⟨x, List.mem_cons_self _ _, Or.inr rfl⟩
        · exact ⟨l', List.mem_cons_of_mem _ hh, Or.inl rfl⟩
  rcases aux B.reverse h with ⟨l, hl, hor⟩
  exact ⟨l, List.mem_reverse.mp hl, hor⟩

theorem pyRstrip_joinNL (B : List Str) :
    pyRstrip (joinNL B) = joinNL (stripTrail B) := by
  induction B using List.reverseRecOn with
  | nil => rfl
  | append_singleton B l ih =>
    rw [stripTrail_concat]
    by_cases hl : pyRstrip l = []
    · rw [if_pos hl]
      rcases B with _ | ⟨x, B'⟩
      · rw [List.nil_append, show joinNL [l] = l from rfl, hl, stripTrail_nil]
        rfl
      · rw [joinNL_concat (List.cons_ne_nil _ _),
          show joinNL (x :: B') ++ '\n' :: l = joinNL (x :: B') ++ ('\n' :: l) from rfl,
          pyRstrip_append_of_nil (by
            rw [pyRstrip_eq_nil_iff]
            intro c hc
            rcases List.mem_cons.mp hc with rfl | hc
            · rfl
            · exact pyRstrip_eq_nil_iff.mp hl c hc)]
        exact ih
    · rw [if_neg hl]
      rcases B with _ | ⟨x, B'⟩
      · rw [List.nil_append, show joinNL [l] = l from rfl,
          List.nil_append, show joinNL [pyRstrip l] = pyRstrip l from rfl]
      · have hbl : pyRstrip ('\n' :: l) = '\n' :: pyRstrip l := by
          rw [show ('\n' :: l : Str) = ['\n'] ++ l from rfl, pyRstrip_append_of_ne hl]
          rfl
        rw [joinNL_concat (List.cons_ne_nil _ _),
          show joinNL (x :: B') ++ '\n' :: l = joinNL (x :: B') ++ ('\n' :: l) from rfl,
          pyRstrip_append_of_ne (by rw [hbl]; exact List.cons_ne_nil _ _), hbl,
          joinNL_concat (List.cons_ne_nil _ _)]

theorem splitBlocksGo_nil (cur : List Str) :
    splitBlocksGo [] cur = if cur = [] then [] else [cur] := rfl

theorem splitBlocksGo_cons (line : Str) (rest cur : List Str) :
    splitBlocksGo (line :: rest) cur =
      if planMarker.isPrefixOf line then
        if cur = [] then splitBlocksGo rest [line]
        else cur :: splitBlocksGo rest [line]
      else
        if cur = [] then splitBlocksGo rest []
        else splitBlocksGo rest (cur ++ [line]) := rfl

theorem marker_not_prefix_nil : planMarker.isPrefixOf ([] : Str) = false := rfl

theorem splitBlocksGo_marker_start {h' : Str} (t : List Str)
    (hm : planMarker.isPrefixOf h' = true) :
    splitBlocksGo (h' :: t) [] = splitBlocksGo t [h'] := by
  rw [splitBlocksGo_cons, hm, if_pos rfl]
  rfl

theorem splitBlocksGo_marker_cons {h' : Str} (t : List Str) {cur : List Str}
    (hm : planMarker.isPrefixOf h' = true) (hc : cur ≠ []) :
    splitBlocksGo (h' :: t) cur = cur :: splitBlocksGo t [h'] := by
  rw [splitBlocksGo_cons, hm, if_neg hc]
  rfl

theorem splitBlocksGo_skip {l : Str} (t : List Str)
    (hm : planMarker.isPrefixOf l = false) :
    splitBlocksGo (l :: t) [] = splitBlocksGo t [] := by
  rw [splitBlocksGo_cons, hm, if_pos rfl]
  rfl

theorem splitBlocksGo_all_nonmarker {t : List Str} {cur : List Str}
    (hc : cur ≠ []) (h : ∀ l ∈ t, planMarker.isPrefixOf l = false) :
    splitBlocksGo t cur = [cur ++ t] := by
  induction t generalizing cur with
  | nil =>
    rw [splitBlocksGo_nil, if_neg hc, List.append_nil]
  | cons l t ih =>
    rw [splitBlocksGo_cons, h l (List.mem_cons_self _ _), if_neg Bool.false_ne_true,
      if_neg hc, ih (by simp) (fun x hx => h x (List.mem_cons_of_mem _ hx))]
    simp

theorem splitBlocksGo_nonmarker_seg {t : List Str} (u : List Str) {cur : List Str}
    (hc : cur ≠ []) (h : ∀ l ∈ t, planMarker.isPrefixOf l = false) :
    splitBlocksGo (t ++ u) cur = splitBlocksGo u (cur ++ t) := by
  induction t generalizing cur with
  | nil => rw [List.nil_append, List.append_nil]
  | cons l t ih =>
    rw [List.cons_append, splitBlocksGo_cons, h l (List.mem_cons_self _ _),
      if_neg Bool.false_ne_true, if_neg hc,
      ih (by simp) (fun x hx => h x (List.mem_cons_of_mem _ hx))]
    simp

theorem splitBlocksGo_marker_restart {u : List Str} {cur : List Str}
    (hu : u ≠ []) (hm : planMarker.isPrefixOf (u.headD []) = true) (hc : cur ≠ []) :
    splitBlocksGo u cur = cur :: splitBlocksGo u [] := by
  rcases u with _ | ⟨uh, ut⟩
  · exact absurd rfl hu
  · rw [List.headD_cons] at hm
    rw [splitBlocksGo_marker_cons ut hm hc, splitBlocksGo_marker_start ut hm]

theorem goodBlock_splitBlocksGo : ∀ (body : List Str) (cur : List Str),
    (cur = [] ∨ GoodBlock cur) → ∀ b ∈ splitBlocksGo body cur, GoodBlock b := by
  intro body
  induction body with
  | nil =>
    intro cur hcur b hb
    rw [splitBlocksGo_nil] at hb
    by_cases hc : cur = []
    · rw [if_pos hc] at hb; cases hb
    · rw [if_neg hc] at hb
      rcases List.mem_singleton.mp hb with rfl
      exact hcur.resolve_left hc
  | cons l body ih =>
    intro cur hcur b hb
    rw [splitBlocksGo_cons] at hb
    by_cases hm : planMarker.isPrefixOf l = true
    · rw [hm, if_pos rfl] at hb
      have hgood : GoodBlock [l] := ⟨List.cons_ne_nil _ _, by simpa using hm, by simp⟩
      by_cases hc : cur = []
      · rw [if_pos hc] at hb
        exact ih [l] (Or.inr hgood) b hb
      · rw [if_neg hc] at hb
        rcases List.mem_cons.mp hb with rfl | hb
        · exact hcur.resolve_left hc
        · exact ih [l] (Or.inr hgood) b hb
    · rw [Bool.not_eq_true] at hm
      rw [hm, if_neg Bool.false_ne_true] at hb
      by_cases hc : cur = []
      · rw [if_pos hc] at hb
        exact ih [] (Or.inl rfl) b hb
      · rw [if_neg hc] at hb
        apply ih (cur ++ [l]) _ b hb
        right
        obtain ⟨hne, hhead, htail⟩ := hcur.resolve_left hc
        rcases cur with _ | ⟨c0, ct⟩
        · exact absurd rfl hc
        · refine ⟨by simp, by simpa using hhead, ?_⟩
          intro x hx
          rw [List.cons_append, List.tail_cons] at hx
          rcases List.mem_append.mp hx with hx | hx
          · exact htail x hx
          · rcases List.mem_singleton.mp hx with rfl
            exact hm

theorem mem_splitBlocksGo_sub : ∀ (body : List Str) (cur : List Str),
    ∀ b ∈ splitBlocksGo body cur, ∀ l ∈ b, l ∈ cur ∨ l ∈ body := by
  intro body
  induction body with
  | nil =>
    intro cur b hb l hl
    rw [splitBlocksGo_nil] at hb
    by_cases hc : cur = []
    · rw [if_pos hc] at hb; cases hb
    · rw [if_neg hc] at hb
      rcases List.mem_singleton.mp hb with rfl
      exact Or.inl hl
  | cons x body ih =>
    intro cur b hb l hl
    rw [splitBlocksGo_cons] at hb
    by_cases hm : planMarker.isPrefixOf x = true
    · rw [hm, if_pos rfl] at hb
      by_cases hc : cur = []
      · rw [if_pos hc] at hb
        rcases ih [x] b hb l hl with hx | hx
        · exact Or.inr (List.mem_cons.mpr (Or.inl (List.mem_singleton.mp hx)))
        · exact Or.inr (List.mem_cons_of_mem _ hx)
      · rw [if_neg hc] at hb
        rcases List.mem_cons.mp hb with rfl | hb
        · exact Or.inl hl
        · rcases ih [x] b hb l hl with hx | hx
          · exact Or.inr (List.mem_cons.mpr (Or.inl (List.mem_singleton.mp hx)))
          · exact Or.inr (List.mem_cons_of_mem _ hx)
    · rw [Bool.not_eq_true] at hm
      rw [hm, if_neg Bool.false_ne_true] at hb
      by_cases hc : cur = []
      · rw [if_pos hc] at hb
        rcases ih [] b hb l hl with hx | hx
        · cases hx
        · exact Or.inr (List.mem_cons_of_mem _ hx)
      · rw [if_neg hc] at hb
        rcases ih (cur ++ [x]) b hb l hl with hx | hx
        · rcases List.mem_append.mp hx with hx | hx
          · exact Or.inl hx
          · exact Or.inr (List.mem_cons.mpr (Or.inl (List.mem_singleton.mp hx)))
        · exact Or.inr (List.mem_cons_of_mem _ hx)

theorem splitBlocksGo_nonmarker_cons {l : Str} (t : List Str) {cur : List Str}
    (hm : planMarker.isPrefixOf l = false) (hc : cur ≠ []) :
    splitBlocksGo (l :: t) cur = splitBlocksGo t (cur ++ [l]) := by
  rw [splitBlocksGo_cons, hm, if_neg Bool.false_ne_true, if_neg hc]

theorem sepLines_cons {p : List Str} {rest : List (List Str)} (h : rest ≠ []) :
    sepLines (p :: rest) = p ++ [] :: sepLines rest := by
  rcases rest with _ | ⟨q, r⟩
  · exact absurd rfl h
  · rfl

theorem withSeps_cons {p : List Str} {rest : List (List Str)} (h : rest ≠ []) :
    withSeps (p :: rest) = (p ++ [[]]) :: withSeps rest := by
  rcases rest with _ | ⟨q, r⟩
  · exact absurd rfl h
  · rfl

theorem sepLines_ne_nil {p : List Str} (rest : List (List Str)) (hp : p ≠ []) :
    sepLines (p :: rest) ≠ [] := by
  rcases rest with _ | ⟨q, r⟩
  · exact hp
  · rw [sepLines_cons (List.cons_ne_nil _ _)]
    simp

theorem sepLines_headD {p : List Str} (rest : List (List Str)) (hp : p ≠ []) :
    (sepLines (p :: rest)).headD [] = p.headD [] := by
  rcases rest with _ | ⟨q, r⟩
  · rfl
  · rw [sepLines_cons (List.cons_ne_nil _ _)]
    rcases p with _ | ⟨p0, pt⟩
    · exact absurd rfl hp
    · rfl

theorem splitBlocksGo_sepLines : ∀ {P : List (List Str)}, (∀ p ∈ P, GoodBlock p) →
    splitBlocksGo (sepLines P) [] = withSeps P := by
  intro P
  induction P with
  | nil => intro _; rfl
  | cons p P ih =>
    intro hP
    obtain ⟨hne, hhead, htail⟩ := hP p (List.mem_cons_self _ _)
    obtain ⟨h0, t0, rfl⟩ := List.exists_cons_of_ne_nil hne
    rw [List.headD_cons] at hhead
    rw [List.tail_cons] at htail
    rcases P with _ | ⟨q, P'⟩
    · rw [show sepLines [h0 :: t0] = h0 :: t0 from rfl,
        splitBlocksGo_marker_start t0 hhead,
        splitBlocksGo_all_nonmarker (List.cons_ne_nil _ _) htail]
      rfl
    · obtain ⟨hq_ne, hq_head, _⟩ := hP q (List.mem_cons_of_mem _ (List.mem_cons_self _ _))
      rw [sepLines_cons (List.cons_ne_nil _ _), withSeps_cons (List.cons_ne_nil _ _),
        List.cons_append, splitBlocksGo_marker_start _ hhead,
        splitBlocksGo_nonmarker_seg _ (List.cons_ne_nil _ _) htail,
        splitBlocksGo_nonmarker_cons _ marker_not_prefix_nil (by simp),
        splitBlocksGo_marker_restart (sepLines_ne_nil P' hq_ne)
          (by rw [sepLines_headD P' hq_ne]; exact hq_head) (by simp),
        ih (fun x hx => hP x (List.mem_cons_of_mem _ hx))]
      simp

theorem length_plan_entries (blocks : List (List Str)) :
    (plan_entries blocks).length = blocks.length := by
  simp [plan_entries]

theorem plan_entries_getElem (blocks : List (List Str)) (i : Nat)
    (h1 : i < (plan_entries blocks).length) (h2 : i < blocks.length) :
    (plan_entries blocks)[i] =
      (parse_plan_timestamp (planOf blocks[i]), i, pyRstrip (joinNL blocks[i])) := by
  simp [plan_entries, List.getElem_enum]

theorem headD_append_of_ne_nil {p : List Str} (u : List Str) (hp : p ≠ []) :
    (p ++ u).headD [] = p.headD [] := by
  rcases p with _ | ⟨p0, pt⟩
  · exact absurd rfl hp
  · rfl

theorem reorder_ok_of {text : Str} {ei : Nat}
    (h1 : entries_index (splitlines text) = some ei)
    (h2 : invalid_plans (docBlocks text) = []) :
    reorder text = Except.ok ⟨docNewText text, docConsole text⟩ := by
  unfold reorder
  rw [h1, if_pos h2]

theorem reorder_error_of_missing {text : Str}
    (h : entries_index (splitlines text) = none) :
    reorder text = Except.error entriesMissingMsg := by
  unfold reorder
  rw [h]

theorem reorder_error_of_invalid {text : Str} {ei : Nat}
    (h1 : entries_index (splitlines text) = some ei)
    (h2 : invalid_plans (docBlocks text) ≠ []) :
    reorder text = Except.error (invalidMsg (invalid_plans (docBlocks text))) := by
  unfold reorder
  rw [h1, if_neg h2]

theorem of_reorder_isOk {text : Str} (h : (reorder text).isOk = true) :
    (∃ ei, entries_index (splitlines text) = some ei) ∧
      invalid_plans (docBlocks text) = [] := by
  cases heq : entries_index (splitlines text) with
  | none =>
    rw [reorder_error_of_missing heq] at h
    simp [Except.isOk, Except.toBool] at h
  | some ei =>
    by_cases h2 : invalid_plans (docBlocks text) = []
    · exact ⟨⟨ei, heq ▸ rfl⟩, h2⟩
    · rw [reorder_error_of_invalid heq h2] at h
      simp [Except.isOk, Except.toBool] at h

theorem reorder_isOk_eq {text : Str} (h : (reorder text).isOk = true) :
    reorder text = Except.ok ⟨docNewText text, docConsole text⟩ := by
  rcases of_reorder_isOk h with ⟨⟨ei, h1⟩, h2⟩
  exact reorder_ok_of h1 h2

/-- C3: a document with no line whose stripped content is `Entries`
makes the run abort fatally with the structural error, and the file is
not written (its content stays the original text). -/
theorem C3_missing_heading_aborts (text : Str)
    (h : ∀ l ∈ splitlines text, pyStrip l ≠ entriesStr) :
    reorder text = Except.error entriesMissingMsg ∧ finalFileText text = text := by
  have hE : entries_index (splitlines text) = none := by
    unfold entries_index
    rw [List.findIdx?_eq_none_iff]
    intro l hl
    exact beq_eq_false_iff_ne.mpr (h l hl)
  refine ⟨reorder_error_of_missing hE, ?_⟩
  unfold finalFileText
  rw [reorder_error_of_missing hE]

/-- Witness for C3 at the concrete document `"hello\nworld\n"`. -/
theorem C3_missing_heading_aborts_witness :
    reorder wdoc3 = Except.error entriesMissingMsg ∧ finalFileText wdoc3 = wdoc3 :=
  C3_missing_heading_aborts wdoc3 (by decide)

/-- C2: with the heading present and at least one unparseable plan
identifier, the run aborts fatally before any write (the file keeps its
original text), and the abort message is the expected-shape description
and example followed by every unparseable plan identifier, each on its
own line with a `- ` in front, in block order. -/
theorem C2_invalid_plans_abort (text : Str) (ei : Nat)
    (h1 : entries_index (splitlines text) = some ei)
    (h2 : invalid_plans (docBlocks text) ≠ []) :
    reorder text =
      Except.error (invalidMsgStart ++
        joinNL ((((docBlocks text).map planOf).filter
          (fun p => (parse_plan_timestamp p).isNone)).map (fun p => '-' :: ' ' :: p))) ∧
    finalFileText text = text ∧
    (∀ p ∈ (docBlocks text).map planOf, parse_plan_timestamp p = none →
      p ∈ invalid_plans (docBlocks text)) := by
  refine ⟨?_, ?_, ?_⟩
  · rw [reorder_error_of_invalid h1 h2]
    rfl
  · unfold finalFileText
    rw [reorder_error_of_invalid h1 h2]
  · intro p hp hnone
    unfold invalid_plans
    rw [List.mem_filter]
    exact ⟨hp, by rw [hnone]; rfl⟩

/-- Witness for C2 at a document whose plans are `weird_name` (prefix
with fewer than 3 hyphens) and `2026-02-30-13pm_x` (hour out of range). -/
theorem C2_invalid_plans_abort_witness :
    reorder wdoc2 =
      Except.error (invalidMsgStart ++
        joinNL ((((docBlocks wdoc2).map planOf).filter
          (fun p => (parse_plan_timestamp p).isNone)).map (fun p => '-' :: ' ' :: p))) ∧
    finalFileText wdoc2 = wdoc2 ∧
    (∀ p ∈ (docBlocks wdoc2).map planOf, parse_plan_timestamp p = none →
      p ∈ invalid_plans (docBlocks wdoc2)) :=
  C2_invalid_plans_abort wdoc2 0 (by decide) (by decide)

/-- C10: whenever the timestamp parser returns a tuple, its fourth
component (the 24-hour value) lies in `[0, 23]`. -/
theorem C10_hour24_in_range (s : Str) (y m d h : Int)
    (hp : parse_plan_timestamp s = some (y, m, d, h)) : 0 ≤ h ∧ h ≤ 23 := by
  unfold parse_plan_timestamp at hp
  dsimp only [] at hp
  split at hp
  · cases hp
  · split at hp
    · cases hp
    · split at hp
      · cases hp
      · split at hp
        · cases hp
        · split at hp
          · split at hp
            · split at hp
              · cases hp
              · split at hp
                · rw [Option.some.injEq, Prod.mk.injEq, Prod.mk.injEq, Prod.mk.injEq] at hp
                  obtain ⟨-, -, -, rfl⟩ := hp
                  split
                  all_goals simp only [Int.ofNat_eq_coe]; omega
                · rw [Option.some.injEq, Prod.mk.injEq, Prod.mk.injEq, Prod.mk.injEq] at hp
                  obtain ⟨-, -, -, rfl⟩ := hp
                  split
                  all_goals simp only [Int.ofNat_eq_coe]; omega
            · cases hp
          · cases hp

/-- Witness for C10 at the identifier `2026-01-28-11pm_x`, whose parsed
hour is 23. -/
theorem C10_hour24_in_range_witness :
    (0 : Int) ≤ 23 ∧ (23 : Int) ≤ 23 :=
  C10_hour24_in_range "2026-01-28-11pm_x".data 2026 1 28 23 (by decide)

theorem toLower_of_isDigit {c : Char} (h : c.isDigit = true) : c.toLower = c := by
  unfold Char.toLower
  rw [if_neg]
  simp only [Char.isDigit, Bool.and_eq_true, decide_eq_true_eq] at h
  obtain ⟨h1, h2⟩ := h
  have h1' : 48 ≤ c.val.toNat := UInt32.le_toNat_of_le (by norm_num [UInt32.size]) h1
  have h2' : c.val.toNat ≤ 57 := UInt32.toNat_le_of_le (by norm_num [UInt32.size]) h2
  simp only [Char.toNat]
  omega

theorem isSpaceChar_of_isDigit {c : Char} (h : c.isDigit = true) : isSpaceChar c = false := by
  rw [Bool.eq_false_iff]
  intro hx
  simp only [isSpaceChar, Bool.or_eq_true, decide_eq_true_eq] at hx
  rcases hx with ((((rfl | rfl) | rfl) | rfl) | rfl) | rfl <;> exact absurd h (by decide)

theorem ne_of_isDigit {c x : Char} (h : c.isDigit = true) (hx : x.isDigit = false) : c ≠ x := by
  intro hh
  rw [hh, hx] at h
  cases h

theorem pyStrip_eq_self_of_no_space {s : Str}
    (h : ∀ c ∈ s, isSpaceChar c = false) : pyStrip s = s := by
  unfold pyStrip pyLstrip
  rw [pyRstrip_eq_self_of (fun c hc => h c (List.mem_of_mem_getLast? (by rw [hc]; rfl)))]
  rcases s with _ | ⟨c, t⟩
  · rfl
  · rw [List.dropWhile_cons_of_neg]
    rw [h c (List.mem_cons_self _ _)]
    simp

theorem takeWhile_append_eq {p : Char → Bool} {a : Str} {x : Char} (b : Str)
    (ha : ∀ c ∈ a, p c = true) (hx : p x = false) :
    (a ++ x :: b).takeWhile p = a := by
  induction a with
  | nil =>
    rw [List.nil_append, List.takeWhile_cons_of_neg (by rw [hx]; simp)]
  | cons c a ih =>
    rw [List.cons_append, List.takeWhile_cons_of_pos (ha c (List.mem_cons_self _ _)),
      ih (fun y hy => ha y (List.mem_cons_of_mem _ hy))]

theorem dropWhile_append_eq {p : Char → Bool} {a : Str} {x : Char} (b : Str)
    (ha : ∀ c ∈ a, p c = true) (hx : p x = false) :
    (a ++ x :: b).dropWhile p = x :: b := by
  induction a with
  | nil =>
    rw [List.nil_append, List.dropWhile_cons_of_neg (by rw [hx]; simp)]
  | cons c a ih =>
    rw [List.cons_append, List.dropWhile_cons_of_pos (ha c (List.mem_cons_self _ _)),
      ih (fun y hy => ha y (List.mem_cons_of_mem _ hy))]

theorem planSplitUnderscore_append {A : Str} (name : Str) (hA : ∀ c ∈ A, c ≠ '_') :
    planSplitUnderscore (A ++ '_' :: name) = A := by
  unfold planSplitUnderscore
  exact takeWhile_append_eq name (fun c hc => decide_eq_true (hA c hc)) (by decide)

theorem rsplitHyphen_append {d t : Str} (ht : ∀ c ∈ t, c ≠ '-') :
    rsplitHyphen (d ++ '-' :: t) = (d, t) := by
  unfold rsplitHyphen
  have hrev : ∀ c ∈ t.reverse, (decide (c ≠ '-')) = true :=
    fun c hc => decide_eq_true (ht c (List.mem_reverse.mp hc))
  rw [List.reverse_append, List.reverse_cons, List.append_assoc, List.singleton_append,
    takeWhile_append_eq _ hrev (by decide), dropWhile_append_eq _ hrev (by decide)]
  simp

theorem splitHyphen2_append {y m d : Str} (hy : ∀ c ∈ y, c ≠ '-') (hm : ∀ c ∈ m, c ≠ '-') :
    splitHyphen2 (y ++ '-' :: (m ++ '-' :: d)) = (y, m, d) := by
  unfold splitHyphen2
  have hy' : ∀ c ∈ y, (decide (c ≠ '-')) = true := fun c hc => decide_eq_true (hy c hc)
  have hm' : ∀ c ∈ m, (decide (c ≠ '-')) = true := fun c hc => decide_eq_true (hm c hc)
  rw [takeWhile_append_eq _ hy' (by decide), dropWhile_append_eq _ hy' (by decide)]
  simp only [List.tail_cons]
  rw [takeWhile_append_eq _ hm' (by decide), dropWhile_append_eq _ hm' (by decide)]
  rfl

theorem intDigitsTail_cons_ne {c : Char} (rest : Str) (hc : c ≠ '_') :
    intDigitsTail (c :: rest) = (c.isDigit && intDigitsTail rest) := by
  rw [intDigitsTail.eq_def]
  split
  · rename_i heq
    exact absurd heq (List.cons_ne_nil c rest)
  · rename_i heq
    rw [List.cons.injEq] at heq
    exact absurd heq.1 hc
  · rename_i heq
    rw [List.cons.injEq] at heq
    obtain ⟨rfl, rfl⟩ := heq
    rfl

theorem intDigitsTail_all_digits {s : Str} (h : ∀ c ∈ s, c.isDigit = true) :
    intDigitsTail s = true := by
  induction s with
  | nil => rfl
  | cons c rest ih =>
    rw [intDigitsTail_cons_ne rest
        (ne_of_isDigit (h c (List.mem_cons_self _ _)) (by decide)),
      h c (List.mem_cons_self _ _), ih (fun x hx => h x (List.mem_cons_of_mem _ hx))]
    rfl

theorem intDigitsOk_all {s : Str} (hne : s ≠ []) (h : ∀ c ∈ s, c.isDigit = true) :
    intDigitsOk s = true := by
  rcases s with _ | ⟨c, rest⟩
  · exact absurd rfl hne
  · show (c.isDigit && intDigitsTail rest) = true
    rw [h c (List.mem_cons_self _ _),
      intDigitsTail_all_digits (fun x hx => h x (List.mem_cons_of_mem _ hx))]
    rfl

theorem pyInt_digits {s : Str} (hne : s ≠ []) (h : ∀ c ∈ s, c.isDigit = true) :
    pyInt s = some (Int.ofNat (digitsVal s)) := by
  unfold pyInt
  rw [pyStrip_eq_self_of_no_space (fun c hc => isSpaceChar_of_isDigit (h c hc))]
  rcases s with _ | ⟨c, r⟩
  · exact absurd rfl hne
  · have hcd := h c (List.mem_cons_self _ _)
    dsimp only []
    rw [if_neg (show ¬c = '+' from ne_of_isDigit hcd (by decide)),
      if_neg (show ¬c = '-' from ne_of_isDigit hcd (by decide))]
    unfold pyIntDigits
    rw [if_pos (intDigitsOk_all (List.cons_ne_nil _ _) h),
      List.filter_eq_self.mpr
        (fun x hx => decide_eq_true (ne_of_isDigit (h x hx) (by decide)))]
    rfl

theorem pyLower_append (a b : Str) : pyLower (a ++ b) = pyLower a ++ pyLower b :=
  List.map_append _ a b

theorem pyLower_digits {s : Str} (h : ∀ c ∈ s, c.isDigit = true) : pyLower s = s := by
  induction s with
  | nil => rfl
  | cons c rest ih =>
    show c.toLower :: pyLower rest = c :: rest
    rw [toLower_of_isDigit (h c (List.mem_cons_self _ _)),
      ih (fun x hx => h x (List.mem_cons_of_mem _ hx))]

theorem isdigitStr_of {s : Str} (hne : s ≠ []) (h : ∀ c ∈ s, c.isDigit = true) :
    isdigitStr s = true := by
  unfold isdigitStr
  rw [List.all_eq_true.mpr h]
  rcases s with _ | ⟨c, r⟩
  · exact absurd rfl hne
  · rfl

theorem parse_ident_eq (ys ms ds hs mer name : Str)
    (hys : ys ≠ []) (hysd : ∀ c ∈ ys, c.isDigit = true)
    (hms : ms ≠ []) (hmsd : ∀ c ∈ ms, c.isDigit = true)
    (hds : ds ≠ []) (hdsd : ∀ c ∈ ds, c.isDigit = true)
    (hhs : ∀ c ∈ hs, c ≠ '-' ∧ c ≠ '_')
    (hmer : mer = amStr ∨ mer = pmStr) :
    parse_plan_timestamp
        ((ys ++ '-' :: (ms ++ '-' :: (ds ++ '-' :: (hs ++ mer)))) ++ '_' :: name) =
      (if isdigitStr (pyLower hs) = true then
        (if digitsVal (pyLower hs) < 1 ∨ 12 < digitsVal (pyLower hs) then none
         else if mer = amStr then
           some (Int.ofNat (digitsVal ys), Int.ofNat (digitsVal ms), Int.ofNat (digitsVal ds),
             Int.ofNat (if digitsVal (pyLower hs) = 12 then 0 else digitsVal (pyLower hs)))
         else
           some (Int.ofNat (digitsVal ys), Int.ofNat (digitsVal ms), Int.ofNat (digitsVal ds),
             Int.ofNat (if digitsVal (pyLower hs) = 12 then 12 else digitsVal (pyLower hs) + 12)))
       else none) := by
  have hysne : ∀ c ∈ ys, c ≠ '-' := fun c hc => ne_of_isDigit (hysd c hc) (by decide)
  have hmsne : ∀ c ∈ ms, c ≠ '-' := fun c hc => ne_of_isDigit (hmsd c hc) (by decide)
  have hmer' : ∀ c ∈ mer, c ≠ '-' ∧ c ≠ '_' := by
    rcases hmer with rfl | rfl <;> decide
  have hT : ∀ c ∈ hs ++ mer, c ≠ '-' := by
    intro c hc
    rcases List.mem_append.mp hc with hc | hc
    · exact (hhs c hc).1
    · exact (hmer' c hc).1
  have hA_ : ∀ c ∈ ys ++ '-' :: (ms ++ '-' :: (ds ++ '-' :: (hs ++ mer))), c ≠ '_' := by
    intro c hc
    rcases List.mem_append.mp hc with hc | hc
    · exact ne_of_isDigit (hysd c hc) (by decide)
    · rcases List.mem_cons.mp hc with rfl | hc
      · decide
      · rcases List.mem_append.mp hc with hc | hc
        · exact ne_of_isDigit (hmsd c hc) (by decide)
        · rcases List.mem_cons.mp hc with rfl | hc
          · decide
          · rcases List.mem_append.mp hc with hc | hc
            · exact ne_of_isDigit (hdsd c hc) (by decide)
            · rcases List.mem_cons.mp hc with rfl | hc
              · decide
              · rcases List.mem_append.mp hc with hc | hc
                · exact (hhs c hc).2
                · exact (hmer' c hc).2
  have cys : ys.count '-' = 0 := List.count_eq_zero.mpr (fun hc => (hysne '-' hc) rfl)
  have cms : ms.count '-' = 0 := List.count_eq_zero.mpr (fun hc => (hmsne '-' hc) rfl)
  have cds : ds.count '-' = 0 :=
    List.count_eq_zero.mpr (fun hc => (ne_of_isDigit (hdsd '-' hc) (by decide)) rfl)
  have cT : (hs ++ mer).count '-' = 0 := List.count_eq_zero.mpr (fun hc => (hT '-' hc) rfl)
  have hcount : (ys ++ '-' :: (ms ++ '-' :: (ds ++ '-' :: (hs ++ mer)))).count '-' = 3 := by
    simp [List.count_append, List.count_cons_self, cys, cms, cds, cT]
  unfold parse_plan_timestamp
  dsimp only []
  rw [planSplitUnderscore_append name hA_, hcount, if_neg (Nat.lt_irrefl 3),
    show ys ++ '-' :: (ms ++ '-' :: (ds ++ '-' :: (hs ++ mer)))
        = (ys ++ '-' :: (ms ++ '-' :: ds)) ++ '-' :: (hs ++ mer) by
      simp [List.append_assoc],
    rsplitHyphen_append hT]
  dsimp only []
  rw [splitHyphen2_append hysne hmsne]
  dsimp only []
  rw [pyInt_digits hys hysd]
  dsimp only []
  rw [pyInt_digits hms hmsd]
  dsimp only []
  rw [pyInt_digits hds hdsd]
  dsimp only []
  rw [pyLower_append]
  have hmerlow : pyLower mer = mer := by rcases hmer with rfl | rfl <;> decide
  rw [hmerlow]
  have hlen : (pyLower hs ++ mer).length - 2 = (pyLower hs).length := by
    rcases hmer with rfl | rfl <;> simp [pyLower, amStr, pmStr]
  rw [hlen, List.drop_left, List.take_left, if_pos hmer]

/-- C6: on identifiers matching the documented pattern, the 12-hour to
24-hour conversion is: `am` maps hour 12 to 0 and keeps other hours;
`pm` maps hour 12 to 12 and adds 12 to other hours.  The date
components may be any digit strings. -/
theorem C6_hour_conversion (ys ms ds hs name mer : Str)
    (hys : ys ≠ []) (hysd : ∀ c ∈ ys, c.isDigit = true)
    (hms : ms ≠ []) (hmsd : ∀ c ∈ ms, c.isDigit = true)
    (hds : ds ≠ []) (hdsd : ∀ c ∈ ds, c.isDigit = true)
    (hhs : hs ≠ []) (hhsd : ∀ c ∈ hs, c.isDigit = true)
    (h1 : 1 ≤ digitsVal hs) (h12 : digitsVal hs ≤ 12)
    (hmer : mer = amStr ∨ mer = pmStr) :
    parse_plan_timestamp
        ((ys ++ '-' :: (ms ++ '-' :: (ds ++ '-' :: (hs ++ mer)))) ++ '_' :: name) =
      some (Int.ofNat (digitsVal ys), Int.ofNat (digitsVal ms), Int.ofNat (digitsVal ds),
        Int.ofNat (if mer = amStr then (if digitsVal hs = 12 then 0 else digitsVal hs)
          else (if digitsVal hs = 12 then 12 else digitsVal hs + 12))) := by
  rw [parse_ident_eq ys ms ds hs mer name hys hysd hms hmsd hds hdsd
      (fun c hc => ⟨ne_of_isDigit (hhsd c hc) (by decide),
        ne_of_isDigit (hhsd c hc) (by decide)⟩) hmer,
    pyLower_digits hhsd, if_pos (isdigitStr_of hhs hhsd), if_neg (by omega)]
  by_cases hm : mer = amStr
  · rw [if_pos hm, if_pos hm]
  · rw [if_neg hm, if_neg hm]

/-- Witness for C6: `12am→0`, `12pm→12`, `1am→1`, `11pm→23`. -/
theorem C6_hour_conversion_witness :
    parse_plan_timestamp "2026-01-28-12am_x.txt".data = some (2026, 1, 28, 0) ∧
    parse_plan_timestamp "2026-01-28-12pm_x.txt".data = some (2026, 1, 28, 12) ∧
    parse_plan_timestamp "2026-01-28-1am_x.txt".data = some (2026, 1, 28, 1) ∧
    parse_plan_timestamp "2026-01-28-11pm_x.txt".data = some (2026, 1, 28, 23) := by
  refine ⟨?_, ?_, ?_, ?_⟩
  · rw [show "2026-01-28-12am_x.txt".data =
        ("2026".data ++ '-' :: ("01".data ++ '-' :: ("28".data ++ '-' ::
          ("12".data ++ amStr)))) ++ '_' :: "x.txt".data by decide,
      C6_hour_conversion "2026".data "01".data "28".data "12".data "x.txt".data amStr
        (by decide) (by decide) (by decide) (by decide) (by decide) (by decide)
        (by decide) (by decide) (by decide) (by decide) (Or.inl rfl)]
    decide
  · rw [show "2026-01-28-12pm_x.txt".data =
        ("2026".data ++ '-' :: ("01".data ++ '-' :: ("28".data ++ '-' ::
          ("12".data ++ pmStr)))) ++ '_' :: "x.txt".data by decide,
      C6_hour_conversion "2026".data "01".data "28".data "12".data "x.txt".data pmStr
        (by decide) (by decide) (by decide) (by decide) (by decide) (by decide)
        (by decide) (by decide) (by decide) (by decide) (Or.inr rfl)]
    decide
  · rw [show "2026-01-28-1am_x.txt".data =
        ("2026".data ++ '-' :: ("01".data ++ '-' :: ("28".data ++ '-' ::
          ("1".data ++ amStr)))) ++ '_' :: "x.txt".data by decide,
      C6_hour_conversion "2026".data "01".data "28".data "1".data "x.txt".data amStr
        (by decide) (by decide) (by decide) (by decide) (by decide) (by decide)
        (by decide) (by decide) (by decide) (by decide) (Or.inl rfl)]
    decide
  · rw [show "2026-01-28-11pm_x.txt".data =
        ("2026".data ++ '-' :: ("01".data ++ '-' :: ("28".data ++ '-' ::
          ("11".data ++ pmStr)))) ++ '_' :: "x.txt".data by decide,
      C6_hour_conversion "2026".data "01".data "28".data "11".data "x.txt".data pmStr
        (by decide) (by decide) (by decide) (by decide) (by decide) (by decide)
        (by decide) (by decide) (by decide) (by decide) (Or.inr rfl)]
    decide

/-- C7: with the date components any digit strings (no calendar
validity checking), the parser succeeds exactly when the (lowered) hour
component is a nonempty digit string whose value lies in `[1, 12]`, and
returns `None` otherwise. -/
theorem C7_hour_validation (ys ms ds hs name mer : Str)
    (hys : ys ≠ []) (hysd : ∀ c ∈ ys, c.isDigit = true)
    (hms : ms ≠ []) (hmsd : ∀ c ∈ ms, c.isDigit = true)
    (hds : ds ≠ []) (hdsd : ∀ c ∈ ds, c.isDigit = true)
    (hhs : ∀ c ∈ hs, c ≠ '-' ∧ c ≠ '_')
    (hmer : mer = amStr ∨ mer = pmStr) :
    parse_plan_timestamp
        ((ys ++ '-' :: (ms ++ '-' :: (ds ++ '-' :: (hs ++ mer)))) ++ '_' :: name) =
      if isdigitStr (pyLower hs) = true ∧
          1 ≤ digitsVal (pyLower hs) ∧ digitsVal (pyLower hs) ≤ 12 then
        some (Int.ofNat (digitsVal ys), Int.ofNat (digitsVal ms), Int.ofNat (digitsVal ds),
          Int.ofNat (if mer = amStr then
            (if digitsVal (pyLower hs) = 12 then 0 else digitsVal (pyLower hs))
            else (if digitsVal (pyLower hs) = 12 then 12 else digitsVal (pyLower hs) + 12)))
      else none := by
  rw [parse_ident_eq ys ms ds hs mer name hys hysd hms hmsd hds hdsd hhs hmer]
  by_cases hd : isdigitStr (pyLower hs) = true
  · rw [if_pos hd]
    by_cases hr : 1 ≤ digitsVal (pyLower hs) ∧ digitsVal (pyLower hs) ≤ 12
    · rw [if_pos (show isdigitStr (pyLower hs) = true ∧
          1 ≤ digitsVal (pyLower hs) ∧ digitsVal (pyLower hs) ≤ 12 from ⟨hd, hr⟩),
        if_neg (show ¬(digitsVal (pyLower hs) < 1 ∨ 12 < digitsVal (pyLower hs)) from
          by omega)]
      by_cases hm : mer = amStr
      · rw [if_pos hm]
        rw [if_pos hm]
      · rw [if_neg hm]
        rw [if_neg hm]
    · rw [if_pos (show digitsVal (pyLower hs) < 1 ∨ 12 < digitsVal (pyLower hs) from
          by omega),
        if_neg (show ¬(isdigitStr (pyLower hs) = true ∧
          1 ≤ digitsVal (pyLower hs) ∧ digitsVal (pyLower hs) ≤ 12) from
          fun hcond => hr ⟨hcond.2.1, hcond.2.2⟩)]
  · rw [if_neg hd, if_neg (show ¬(isdigitStr (pyLower hs) = true ∧
        1 ≤ digitsVal (pyLower hs) ∧ digitsVal (pyLower hs) ≤ 12) from
        fun hcond => hd hcond.1)]

/-- Witness for C7: `2026-02-30-13pm_x` is rejected for its hour alone,
while `2026-13-40-1am_x` (month 13, day 40) parses fine. -/
theorem C7_hour_validation_witness :
    parse_plan_timestamp "2026-02-30-13pm_x".data = none ∧
    parse_plan_timestamp "2026-13-40-1am_x".data = some (2026, 13, 40, 1) := by
  constructor
  · rw [show "2026-02-30-13pm_x".data =
        ("2026".data ++ '-' :: ("02".data ++ '-' :: ("30".data ++ '-' ::
          ("13".data ++ pmStr)))) ++ '_' :: "x".data by decide,
      C7_hour_validation "2026".data "02".data "30".data "13".data "x".data pmStr
        (by decide) (by decide) (by decide) (by decide) (by decide) (by decide)
        (by decide) (Or.inr rfl)]
    decide
  · rw [show "2026-13-40-1am_x".data =
        ("2026".data ++ '-' :: ("13".data ++ '-' :: ("40".data ++ '-' ::
          ("1".data ++ amStr)))) ++ '_' :: "x".data by decide,
      C7_hour_validation "2026".data "13".data "40".data "1".data "x".data amStr
        (by decide) (by decide) (by decide) (by decide) (by decide) (by decide)
        (by decide) (Or.inl rfl)]
    decide

theorem nl_not_mem_natDecimalGo : ∀ (fuel n : Nat) (acc : Str),
    '\n' ∉ acc → '\n' ∉ natDecimalGo fuel n acc := by
  intro fuel
  induction fuel with
  | zero => intro n acc hacc; exact hacc
  | succ fuel ih =>
    intro n acc hacc
    have hd : Char.ofNat (48 + n % 10) ≠ '\n' := by
      have hm : n % 10 < 10 := Nat.mod_lt _ (by norm_num)
      interval_cases h : n % 10 <;> decide
    unfold natDecimalGo
    by_cases hn : n < 10
    · rw [if_pos hn]
      intro hmem
      rcases List.mem_cons.mp hmem with heq | hmem
      · exact hd heq.symm
      · exact hacc hmem
    · rw [if_neg hn]
      apply ih
      intro hmem
      rcases List.mem_cons.mp hmem with heq | hmem
      · exact hd heq.symm
      · exact hacc hmem

theorem nl_not_mem_movedMsg (n : Nat) : '\n' ∉ movedMsg n := by
  unfold movedMsg
  intro hmem
  rcases List.mem_append.mp hmem with hm | hm
  · rcases List.mem_append.mp hm with hm | hm
    · exact absurd hm (by decide)
    · exact nl_not_mem_natDecimalGo (n + 1) n [] (by simp) hm
  · exact absurd hm (by decide)

theorem noChanges_ne_movedMsg (n : Nat) : noChangesMsg ≠ movedMsg n := by
  intro h
  have h15 := congrArg (fun s : Str => s[15]?) h
  simp only [movedMsg, movedMsgStart] at h15
  rw [List.getElem?_append_left (by simp), List.getElem?_append_left (by decide)] at h15
  exact absurd h15 (by decide)

theorem docBlocks_good (text : Str) : ∀ b ∈ docBlocks text, GoodBlock b :=
  goodBlock_splitBlocksGo _ [] (Or.inl rfl)

theorem mem_docOrderedBlocks {text : Str} {t : Str} (h : t ∈ docOrderedBlocks text) :
    ∃ b ∈ docBlocks text, t = pyRstrip (joinNL b) := by
  unfold docOrderedBlocks docSorted docEntries at h
  rcases List.mem_map.mp h with ⟨e, he, rfl⟩
  rw [List.mem_insertionSort] at he
  unfold plan_entries at he
  rcases List.mem_map.mp he with ⟨⟨i, b⟩, hib, rfl⟩
  refine ⟨b, ?_, rfl⟩
  rw [List.enum_eq_zip_range] at hib
  exact (List.of_mem_zip hib).2

theorem mem_head_joinNL {b : List Str} {x : Char} (hb : b ≠ []) (hx : x ∈ b.headD []) :
    x ∈ joinNL b := by
  rcases b with _ | ⟨b0, rest⟩
  · exact absurd rfl hb
  · rw [List.headD_cons] at hx
    rcases rest with _ | ⟨r0, rr⟩
    · exact hx
    · rw [joinNL_cons (List.cons_ne_nil _ _)]
      exact List.mem_append_left _ hx

theorem pyRstrip_ne_nil_of {s : Str} {c : Char} (hc : c ∈ s) (hns : isSpaceChar c = false) :
    pyRstrip s ≠ [] := by
  intro h
  rw [pyRstrip_eq_nil_iff] at h
  rw [h c hc] at hns
  cases hns

theorem goodBlock_text_ne_nil {b : List Str} (hg : GoodBlock b) :
    pyRstrip (joinNL b) ≠ [] := by
  obtain ⟨hne, hhead, -⟩ := hg
  rw [List.isPrefixOf_iff_prefix] at hhead
  rcases hhead with ⟨u, hu⟩
  have hdash : '-' ∈ b.headD [] := by
    rw [← hu]
    exact List.mem_append_left _ (by decide)
  exact pyRstrip_ne_nil_of (mem_head_joinNL hne hdash) (by decide)

theorem joinBlankSep_concat {O : List Str} {t : Str} (hO : O ≠ []) :
    joinBlankSep (O ++ [t]) = joinBlankSep O ++ '\n' :: '\n' :: t := by
  induction O with
  | nil => exact absurd rfl hO
  | cons x O ih =>
    rcases O with _ | ⟨y, O'⟩
    · rfl
    · rw [List.cons_append, joinBlankSep_cons (by simp),
        joinBlankSep_cons (List.cons_ne_nil _ _), ih (List.cons_ne_nil _ _)]
      simp

/-- C5: on every successful run the single console line is the
"no changes" message exactly when the new text is byte-identical to the
original, and otherwise reports the count of positions whose block text
differs between the pre-sort and post-sort block lists; the line
contains no newline. -/
theorem C5_console_line (text : Str) (h : (reorder text).isOk = true) :
    reorder text = Except.ok ⟨docNewText text, docConsole text⟩ ∧
    (docConsole text = noChangesMsg ↔ docNewText text = text) ∧
    (docNewText text ≠ text → docConsole text =
      movedMsg ((List.range (docOriginalBlocks text).length).countP
        (fun i => !((docOrderedBlocks text).getD i [] ==
          (docOriginalBlocks text).getD i [])))) ∧
    '\n' ∉ docConsole text := by
  refine ⟨reorder_isOk_eq h, ?_, ?_, ?_⟩
  · unfold docConsole
    by_cases heq : text = docNewText text
    · rw [if_pos heq]
      exact ⟨fun _ => heq.symm, fun _ => rfl⟩
    · rw [if_neg heq]
      constructor
      · intro hcontra
        exact absurd hcontra.symm (noChanges_ne_movedMsg _)
      · intro hcontra
        exact absurd hcontra.symm heq
  · intro hne
    unfold docConsole
    rw [if_neg (fun heq => hne heq.symm)]
    rfl
  · unfold docConsole
    by_cases heq : text = docNewText text
    · rw [if_pos heq]
      decide
    · rw [if_neg heq]
      exact nl_not_mem_movedMsg _

/-- Witness for C5 at a document that is already in order. -/
theorem C5_console_line_witness :
    reorder wdoc1 = Except.ok ⟨docNewText wdoc1, docConsole wdoc1⟩ ∧
    (docConsole wdoc1 = noChangesMsg ↔ docNewText wdoc1 = wdoc1) ∧
    (docNewText wdoc1 ≠ wdoc1 → docConsole wdoc1 =
      movedMsg ((List.range (docOriginalBlocks wdoc1).length).countP
        (fun i => !((docOrderedBlocks wdoc1).getD i [] ==
          (docOriginalBlocks wdoc1).getD i [])))) ∧
    '\n' ∉ docConsole wdoc1 :=
  C5_console_line wdoc1 (by decide)

theorem getLast?_append_right {X t : Str} (ht : t ≠ []) :
    (X ++ t).getLast? = t.getLast? := by
  rw [List.getLast?_append]
  cases htt : t.getLast? with
  | none => exact absurd (List.getLast?_eq_none_iff.mp htt) ht
  | some c => rfl

/-- C4 counterexample: on the document `"Entries\n"` (heading but no
blocks) the run succeeds and rewrites the file as `"Entries\n\n\n"`,
which ends in three consecutive newlines — not exactly one trailing
newline as claimed. -/
theorem C4_trailing_newline_counterexample :
    reorder c4doc = Except.ok ⟨"Entries\n\n\n".data, movedMsg 0⟩ ∧
    ¬ oneTrailingNewline "Entries\n\n\n".data := by
  constructor
  · rfl
  · intro hone
    exact hone.2 (by decide)

/-- C4 (amended): on every successful run the file is overwritten
unconditionally with header text (lines joined by newline, trailing
whitespace trimmed), a blank line, then the blocks joined by blank
lines, and a final newline; when at least one block is present that
final newline is the only trailing newline (with zero blocks the text
ends in three newlines). -/
theorem C4_written_text (text : Str) (h : (reorder text).isOk = true) :
    finalFileText text = docHeaderText text ++ '\n' :: '\n' ::
      (joinBlankSep (docOrderedBlocks text) ++ ['\n']) ∧
    (docOrderedBlocks text ≠ [] → oneTrailingNewline (finalFileText text)) := by
  have hff : finalFileText text = docNewText text := by
    unfold finalFileText
    rw [reorder_isOk_eq h]
  refine ⟨by rw [hff]; rfl, ?_⟩
  intro hne
  rw [hff]
  unfold docNewText
  constructor
  · rw [show docHeaderText text ++ '\n' :: '\n' ::
        (joinBlankSep (docOrderedBlocks text) ++ ['\n'])
        = (docHeaderText text ++ '\n' :: '\n' ::
          joinBlankSep (docOrderedBlocks text)) ++ ['\n'] by simp]
    exact List.getLast?_concat _
  · rw [show docHeaderText text ++ '\n' :: '\n' ::
        (joinBlankSep (docOrderedBlocks text) ++ ['\n'])
        = (docHeaderText text ++ '\n' :: '\n' ::
          joinBlankSep (docOrderedBlocks text)) ++ ['\n'] by simp,
      List.dropLast_concat]
    rcases List.eq_nil_or_concat (docOrderedBlocks text) with hcase | ⟨O, t, hOt⟩
    · exact absurd hcase hne
    · rw [List.concat_eq_append] at hOt
      have htmem : t ∈ docOrderedBlocks text := by
        rw [hOt]
        exact List.mem_append_right _ (List.mem_singleton.mpr rfl)
      rcases mem_docOrderedBlocks htmem with ⟨b, hb, rfl⟩
      have htne : pyRstrip (joinNL b) ≠ [] :=
        goodBlock_text_ne_nil (docBlocks_good text b hb)
      have htlast : ¬ (pyRstrip (joinNL b)).getLast? = some '\n' := by
        intro hc
        have := pyRstrip_getLast_not_space '\n' hc
        simp [isSpaceChar] at this
      rw [hOt]
      rcases O with _ | ⟨o0, O'⟩
      · rw [show joinBlankSep ([] ++ [pyRstrip (joinNL b)]) = pyRstrip (joinNL b) from rfl,
          show docHeaderText text ++ '\n' :: '\n' :: pyRstrip (joinNL b)
            = (docHeaderText text ++ ['\n', '\n']) ++ pyRstrip (joinNL b) by simp,
          getLast?_append_right htne]
        exact htlast
      · rw [joinBlankSep_concat (List.cons_ne_nil _ _),
          show docHeaderText text ++ '\n' :: '\n' ::
            (joinBlankSep (o0 :: O') ++ '\n' :: '\n' :: pyRstrip (joinNL b))
            = (docHeaderText text ++ '\n' :: '\n' :: joinBlankSep (o0 :: O') ++ ['\n', '\n'])
              ++ pyRstrip (joinNL b) by simp,
          getLast?_append_right htne]
        exact htlast

/-- Witness for C4 (amended) at a document with blocks. -/
theorem C4_written_text_witness :
    finalFileText wdoc1 = docHeaderText wdoc1 ++ '\n' :: '\n' ::
      (joinBlankSep (docOrderedBlocks wdoc1) ++ ['\n']) ∧
    (docOrderedBlocks wdoc1 ≠ [] → oneTrailingNewline (finalFileText wdoc1)) :=
  C4_written_text wdoc1 (by decide)

theorem sortKey_some {e : Entry} {t : Int × Int × Int × Int} (h : e.1 = some t) :
    sortKey e = (-t.1, -t.2.1, -t.2.2.1, -t.2.2.2, e.2.1) := by
  unfold sortKey
  rw [h]

theorem docSorted_sorted (text : Str) : List.Sorted entryLE (docSorted text) :=
  List.sorted_insertionSort entryLE (docEntries text)

theorem docEntries_map_idx (text : Str) :
    (docEntries text).map (fun e => e.2.1) = List.range (docBlocks text).length := by
  unfold docEntries plan_entries
  rw [List.map_map]
  exact List.enum_map_fst _

theorem docSorted_perm (text : Str) : List.Perm (docSorted text) (docEntries text) :=
  List.perm_insertionSort _ _

theorem docSorted_idx_nodup (text : Str) :
    ((docSorted text).map (fun e => e.2.1)).Nodup := by
  rw [List.Perm.nodup_iff ((docSorted_perm text).map (fun e => e.2.1)),
    docEntries_map_idx]
  exact List.nodup_range _

theorem docSorted_ts_some {text : Str} (h2 : invalid_plans (docBlocks text) = []) :
    ∀ e ∈ docSorted text, e.1 ≠ none := by
  intro e he
  unfold docSorted at he
  rw [List.mem_insertionSort] at he
  unfold docEntries plan_entries at he
  rcases List.mem_map.mp he with ⟨⟨i, b⟩, hib, rfl⟩
  have hbmem : b ∈ docBlocks text := by
    rw [List.enum_eq_zip_range] at hib
    exact (List.of_mem_zip hib).2
  unfold invalid_plans at h2
  rw [List.filter_eq_nil_iff] at h2
  have := h2 (planOf b) (List.mem_map_of_mem planOf hbmem)
  simp only [Option.isNone_iff_eq_none] at this
  intro hnone
  dsimp only [] at hnone
  exact this hnone

/-- C1: on every input that passes validation, every entry in the
sorted list carries a timestamp, and the sorted order (which is the
block order of the rewritten file) places, of any two entries with
distinct timestamps, the one with the lexicographically later
`(year, month, day, hour24)` tuple strictly first, while entries with
equal timestamps keep ascending original index (original relative
order). -/
theorem C1_output_order (text : Str) (h : (reorder text).isOk = true) :
    (∀ e ∈ docSorted text, e.1 ≠ none) ∧
    List.Pairwise (fun a b : Entry =>
      ∀ ta tb, a.1 = some ta → b.1 = some tb →
        (ta ≠ tb → tupLexLT tb ta) ∧ (ta = tb → a.2.1 < b.2.1))
      (docSorted text) := by
  obtain ⟨-, h2⟩ := of_reorder_isOk h
  refine ⟨docSorted_ts_some h2, ?_⟩
  have hs : List.Pairwise entryLE (docSorted text) := docSorted_sorted text
  have hnodup := docSorted_idx_nodup text
  rw [List.Nodup, List.pairwise_map] at hnodup
  have hcomb := hs.and hnodup
  apply hcomb.imp
  rintro ⟨ea, ia, ta'⟩ ⟨eb, ib, tb'⟩ ⟨hle, hne⟩ ta tb hta htb
  rw [entryLE, sortKey_some hta, sortKey_some htb] at hle
  obtain ⟨t1, t2, t3, t4⟩ := ta
  obtain ⟨u1, u2, u3, u4⟩ := tb
  unfold keyLE at hle
  dsimp only [] at hle hne ⊢
  constructor
  · intro htne
    unfold tupLexLT
    dsimp only []
    rw [Ne, Prod.mk.injEq, Prod.mk.injEq, Prod.mk.injEq] at htne
    omega
  · intro hteq
    rw [Prod.mk.injEq, Prod.mk.injEq, Prod.mk.injEq] at hteq
    obtain ⟨rfl, rfl, rfl, rfl⟩ := hteq
    omega

/-- Witness for C1 at a document with ties and distinct timestamps. -/
theorem C1_output_order_witness :
    (∀ e ∈ docSorted wdoc1, e.1 ≠ none) ∧
    List.Pairwise (fun a b : Entry =>
      ∀ ta tb, a.1 = some ta → b.1 = some tb →
        (ta ≠ tb → tupLexLT tb ta) ∧ (ta = tb → a.2.1 < b.2.1))
      (docSorted wdoc1) :=
  C1_output_order wdoc1 (by decide)

/-- C9: on every successful run the output block texts are a
permutation of the input block texts (each block keeps all its lines,
joined and trailing-whitespace-trimmed), every block line comes from
the body, header plus body reassemble the original line list, and the
rewritten file is the untouched header text followed by the reordered
blocks. -/
theorem C9_blocks_preserved (text : Str) (h : (reorder text).isOk = true) :
    (docOrderedBlocks text).Perm (docOriginalBlocks text) ∧
    (∀ b ∈ docBlocks text, ∀ l ∈ b, l ∈ docBodyLines text) ∧
    docHeaderLines text ++ docBodyLines text = splitlines text ∧
    finalFileText text = pyRstrip (joinNL (docHeaderLines text)) ++ '\n' :: '\n' ::
      (joinBlankSep (docOrderedBlocks text) ++ ['\n']) := by
  refine ⟨?_, ?_, List.take_append_drop _ _, ?_⟩
  · have h2 := (docSorted_perm text).map (fun e => e.2.2)
    have hmap : (docEntries text).map (fun e => e.2.2) = docOriginalBlocks text := by
      unfold docEntries plan_entries docOriginalBlocks
      rw [List.map_map,
        show ((fun e : Entry => e.2.2) ∘
          (fun p : Nat × List Str =>
            ((parse_plan_timestamp (planOf p.2), p.1, pyRstrip (joinNL p.2)) : Entry)))
          = (fun b => pyRstrip (joinNL b)) ∘ Prod.snd from rfl,
        ← List.map_map, List.enum_map_snd]
    rw [hmap] at h2
    exact h2
  · intro b hb l hl
    rcases mem_splitBlocksGo_sub _ [] b hb l hl with hx | hx
    · cases hx
    · exact hx
  · unfold finalFileText
    rw [reorder_isOk_eq h]
    rfl

/-- Witness for C9. -/
theorem C9_blocks_preserved_witness :
    (docOrderedBlocks wdoc1).Perm (docOriginalBlocks wdoc1) ∧
    (∀ b ∈ docBlocks wdoc1, ∀ l ∈ b, l ∈ docBodyLines wdoc1) ∧
    docHeaderLines wdoc1 ++ docBodyLines wdoc1 = splitlines wdoc1 ∧
    finalFileText wdoc1 = pyRstrip (joinNL (docHeaderLines wdoc1)) ++ '\n' :: '\n' ::
      (joinBlankSep (docOrderedBlocks wdoc1) ++ ['\n']) :=
  C9_blocks_preserved wdoc1 (by decide)

theorem pyRstrip_ne_nil_of_pyStrip {l : Str} (h : pyStrip l ≠ []) : pyRstrip l ≠ [] := by
  intro hr
  apply h
  unfold pyStrip pyLstrip
  rw [hr]
  rfl

theorem isUnderlineLine_pyRstrip (l : Str) :
    isUnderlineLine (pyRstrip l) = isUnderlineLine l := by
  unfold isUnderlineLine
  rw [pyStrip_pyRstrip]

theorem entriesTest_pyRstrip (l : Str) :
    (pyStrip (pyRstrip l) == entriesStr) = (pyStrip l == entriesStr) := by
  rw [pyStrip_pyRstrip]

theorem pyStrip_cons_space {c : Char} {u : Str} (hc : isSpaceChar c = true) :
    pyStrip (c :: u) = pyStrip u := by
  unfold pyStrip pyLstrip
  by_cases hu : pyRstrip u = []
  · rw [hu, show (c :: u : Str) = [c] ++ u from rfl, pyRstrip_append_of_nil hu,
      show pyRstrip [c] = ([c].reverse.dropWhile isSpaceChar).reverse from rfl]
    simp [hc]
  · rw [show (c :: u : Str) = [c] ++ u from rfl, pyRstrip_append_of_ne hu,
      List.singleton_append, List.dropWhile_cons_of_pos hc]

theorem marker_prefix_pyRstrip {l : Str} (hm : planMarker.isPrefixOf l = false) :
    planMarker.isPrefixOf (pyRstrip l) = false := by
  rw [Bool.eq_false_iff] at hm ⊢
  intro hx
  apply hm
  rw [List.isPrefixOf_iff_prefix] at hx ⊢
  exact hx.trans (pyRstrip_prefix_self l)

theorem parse_plan_timestamp_nil : parse_plan_timestamp [] = none := rfl

theorem dropColon_marker (u : Str) :
    ((planMarker ++ u).dropWhile (fun c => c ≠ ':')).tail = ' ' :: u := rfl

theorem planOf_cons (b₀ : Str) (rest : List Str) :
    planOf (b₀ :: rest) = pyStrip ((b₀.dropWhile (fun c => c ≠ ':')).tail) := rfl

theorem planOf_marker_block {u : Str} (rest : List Str) :
    planOf ((planMarker ++ u) :: rest) = pyStrip u := by
  rw [planOf_cons, dropColon_marker, pyStrip_cons_space (by decide)]

/-- A good block whose plan identifier is nonempty keeps its shape,
head identifier and non-marker tail under `stripTrail`. -/
theorem stripTrail_goodBlock {b : List Str} (hg : GoodBlock b)
    (hplan : planOf b ≠ []) :
    GoodBlock (stripTrail b) ∧ planOf (stripTrail b) = planOf b := by
  obtain ⟨hne, hhead, htail⟩ := hg
  obtain ⟨b₀, rest, rfl⟩ := List.exists_cons_of_ne_nil hne
  rw [List.headD_cons] at hhead
  rw [List.tail_cons] at htail
  rw [List.isPrefixOf_iff_prefix] at hhead
  obtain ⟨u, hu⟩ := hhead
  subst hu
  rw [planOf_marker_block] at hplan ⊢
  have hustrip : pyRstrip u ≠ [] := pyRstrip_ne_nil_of_pyStrip hplan
  have hb₀strip : pyRstrip (planMarker ++ u) = planMarker ++ pyRstrip u :=
    pyRstrip_append_of_ne hustrip
  have hb₀ne : pyRstrip (planMarker ++ u) ≠ [] := by
    rw [hb₀strip]
    intro hx
    rw [List.append_eq_nil] at hx
    exact absurd hx.1 (by decide)
  by_cases hrest : ∀ l ∈ rest, pyRstrip l = []
  · rw [stripTrail_cons_of_all hrest, stripTrail_singleton, if_neg hb₀ne, hb₀strip]
    refine ⟨⟨List.cons_ne_nil _ _, ?_, by simp⟩, ?_⟩
    · rw [List.headD_cons, List.isPrefixOf_iff_prefix]
      exact ⟨pyRstrip u, rfl⟩
    · rw [planOf_marker_block, pyStrip_pyRstrip]
  · push_neg at hrest
    rw [stripTrail_cons_of_exists hrest]
    refine ⟨⟨List.cons_ne_nil _ _, ?_, ?_⟩, ?_⟩
    · rw [List.headD_cons, List.isPrefixOf_iff_prefix]
      exact ⟨u, rfl⟩
    · rw [List.tail_cons]
      intro l hl
      rcases mem_stripTrail hl with ⟨l', hl', hor⟩
      rcases hor with h1 | h1
      · rw [h1]
        exact htail l' hl'
      · rw [h1]
        exact marker_prefix_pyRstrip (htail l' hl')
    · rw [planOf_marker_block]

theorem mem_sepLines {P : List (List Str)} {l : Str} (h : l ∈ sepLines P) :
    l = [] ∨ ∃ p ∈ P, l ∈ p := by
  induction P with
  | nil => cases h
  | cons p P ih =>
    rcases P with _ | ⟨q, P'⟩
    · exact Or.inr ⟨p, List.mem_cons_self _ _, h⟩
    · rw [sepLines_cons (List.cons_ne_nil _ _)] at h
      rcases List.mem_append.mp h with hx | hx
      · exact Or.inr ⟨p, List.mem_cons_self _ _, hx⟩
      · rcases List.mem_cons.mp hx with rfl | hx
        · exact Or.inl rfl
        · rcases ih hx with hnil | ⟨p', hp', hlp⟩
          · exact Or.inl hnil
          · exact Or.inr ⟨p', List.mem_cons_of_mem _ hp', hlp⟩

theorem joinNL_sepLines {P : List (List Str)} (hP : ∀ p ∈ P, p ≠ []) :
    joinNL (sepLines P) = joinBlankSep (P.map joinNL) := by
  induction P with
  | nil => rfl
  | cons p P ih =>
    rcases P with _ | ⟨q, P'⟩
    · rfl
    · rw [sepLines_cons (List.cons_ne_nil _ _),
        joinNL_append (hP p (List.mem_cons_self _ _))
          (List.cons_ne_nil _ _),
        joinNL_cons (sepLines_ne_nil P' (hP q (List.mem_cons_of_mem _ (List.mem_cons_self _ _)))),
        ih (fun x hx => hP x (List.mem_cons_of_mem _ hx)),
        show List.map joinNL (p :: q :: P') = joinNL p :: joinNL q :: List.map joinNL P'
          from rfl,
        joinBlankSep_cons (List.cons_ne_nil (joinNL q) (List.map joinNL P'))]
      simp

theorem pyRstrip_joinNL_blanksep {p : List Str} (hp : p ≠ []) :
    pyRstrip (joinNL (p ++ [[]])) = pyRstrip (joinNL p) := by
  rw [joinNL_concat hp,
    show joinNL p ++ '\n' :: ([] : Str) = joinNL p ++ ['\n'] from rfl,
    pyRstrip_append_of_nil (by decide)]

theorem planOf_append_blank {p : List Str} (hp : p ≠ []) :
    planOf (p ++ [[]]) = planOf p := by
  unfold planOf
  rw [headD_append_of_ne_nil _ hp]

theorem entries_roundtrip : ∀ (es : List Entry),
    (∀ e ∈ es, ∃ b, GoodBlock b ∧ (∀ l ∈ b, ∀ c ∈ l, isBreakChar c = false) ∧
      e.2.2 = pyRstrip (joinNL b) ∧ e.1 = parse_plan_timestamp (planOf b) ∧ e.1 ≠ none) →
    ∃ P : List (List Str),
      (∀ p ∈ P, GoodBlock p) ∧
      (∀ p ∈ P, ∀ l ∈ p, ∀ c ∈ l, isBreakChar c = false) ∧
      P.length = es.length ∧
      P.map joinNL = es.map (fun e => e.2.2) ∧
      (withSeps P).map (fun bl => pyRstrip (joinNL bl)) = es.map (fun e => e.2.2) ∧
      (withSeps P).map (fun bl => parse_plan_timestamp (planOf bl)) =
        es.map (fun e => e.1) := by
  intro es
  induction es with
  | nil => exact fun _ => ⟨[], by simp, by simp, rfl, rfl, rfl, rfl⟩
  | cons e es ih =>
    intro hes
    obtain ⟨b, hgb, hbf, htext, hts, htsne⟩ := hes e (List.mem_cons_self _ _)
    obtain ⟨P', hP1, hP2, hPlen, hPjoin, hPrs, hPts⟩ :=
      ih (fun x hx => hes x (List.mem_cons_of_mem _ hx))
    have hplan_ne : planOf b ≠ [] := by
      intro h0
      apply htsne
      rw [hts, h0, parse_plan_timestamp_nil]
    obtain ⟨hgood', hplan'⟩ := stripTrail_goodBlock hgb hplan_ne
    have hpiece_bf : ∀ l ∈ stripTrail b, ∀ c ∈ l, isBreakChar c = false := by
      intro l hl c hc
      rcases mem_stripTrail hl with ⟨l', hl', hor⟩
      rcases hor with h1 | h1
      · exact hbf l' hl' c (h1 ▸ hc)
      · exact hbf l' hl' c (mem_of_mem_pyRstrip (h1 ▸ hc))
    have hjoin : joinNL (stripTrail b) = e.2.2 := by
      rw [← pyRstrip_joinNL, htext]
    have hts' : parse_plan_timestamp (planOf (stripTrail b)) = e.1 := by
      rw [hplan', hts]
    refine ⟨stripTrail b :: P', ?_, ?_, ?_, ?_, ?_, ?_⟩
    · intro p hp
      rcases List.mem_cons.mp hp with rfl | hp
      · exact hgood'
      · exact hP1 p hp
    · intro p hp
      rcases List.mem_cons.mp hp with rfl | hp
      · exact hpiece_bf
      · exact hP2 p hp
    · simp [hPlen]
    · rw [List.map_cons, List.map_cons, hjoin, hPjoin]
    · rcases P' with _ | ⟨p0, Ps⟩
      · have hes_nil : es = [] := by
          rcases es with _ | ⟨x, xs⟩
          · rfl
          · cases hPlen
        subst hes_nil
        rw [show withSeps [stripTrail b] = [stripTrail b] from rfl]
        rw [List.map_cons]
        rw [show pyRstrip (joinNL (stripTrail b)) = pyRstrip e.2.2 by rw [hjoin]]
        rw [htext, pyRstrip_idem, ← htext]
        rfl
      · rw [withSeps_cons (List.cons_ne_nil _ _), List.map_cons, List.map_cons,
          pyRstrip_joinNL_blanksep hgood'.1, hjoin, htext, pyRstrip_idem, ← htext, hPrs]
    · rcases P' with _ | ⟨p0, Ps⟩
      · have hes_nil : es = [] := by
          rcases es with _ | ⟨x, xs⟩
          · rfl
          · cases hPlen
        subst hes_nil
        rw [show withSeps [stripTrail b] = [stripTrail b] from rfl]
        rw [List.map_cons, hts']
        rfl
      · rw [withSeps_cons (List.cons_ne_nil _ _), List.map_cons, List.map_cons,
          planOf_append_blank hgood'.1, hts', hPts]

theorem findIdx?_eq_some_iff_opt {α : Type} {xs : List α} {p : α → Bool} {i : Nat} :
    xs.findIdx? p = some i ↔
      ((∃ x, xs[i]? = some x ∧ p x = true) ∧
        ∀ j, j < i → ∀ x, xs[j]? = some x → p x = false) := by
  rw [List.findIdx?_eq_some_iff_getElem]
  constructor
  · rintro ⟨h, hp, hprev⟩
    refine ⟨⟨xs[i], List.getElem?_eq_getElem h, hp⟩, ?_⟩
    intro j hj x hx
    have hjl : j < xs.length := Nat.lt_trans hj h
    rw [List.getElem?_eq_getElem hjl, Option.some.injEq] at hx
    rw [← hx]
    rw [Bool.eq_false_iff]
    exact hprev j hj
  · rintro ⟨⟨x, hx, hpx⟩, hprev⟩
    obtain ⟨hi, hxeq⟩ := List.getElem?_eq_some.mp hx
    refine ⟨hi, by rw [hxeq]; exact hpx, ?_⟩
    intro j hj
    have hjl : j < xs.length := Nat.lt_trans hj hi
    have := hprev j hj xs[j] (List.getElem?_eq_getElem hjl)
    rw [this]
    simp

theorem getD_eq_getElem? {α : Type} (l : List α) (n : Nat) (d : α) :
    l.getD n d = (l[n]?).getD d := by
  simp [List.getD]

theorem isUnderline_strip_ne {l : Str} (h : isUnderlineLine l = true) : pyStrip l ≠ [] := by
  unfold isUnderlineLine at h
  rw [Bool.and_eq_true] at h
  intro hx
  rw [hx] at h
  cases h.1

theorem entriesTest_strip_ne {l : Str} (h : (pyStrip l == entriesStr) = true) :
    pyStrip l ≠ [] := by
  rw [beq_iff_eq] at h
  rw [h]
  decide

theorem second_run_header (lines : List Str) (ei : Nat) (R' : List Str)
    (hei : entries_index lines = some ei) :
    entries_index (stripTrail (lines.take (body_start lines ei)) ++ [] :: R') = some ei ∧
    body_start (stripTrail (lines.take (body_start lines ei)) ++ [] :: R') ei
      = body_start lines ei ∧
    (stripTrail (lines.take (body_start lines ei)) ++ [] :: R').take (body_start lines ei)
      = stripTrail (lines.take (body_start lines ei)) ∧
    (stripTrail (lines.take (body_start lines ei)) ++ [] :: R').drop (body_start lines ei)
      = [] :: R' := by
  unfold entries_index at hei
  obtain ⟨⟨xe, hxe, hpxe⟩, hprev⟩ := findIdx?_eq_some_iff_opt.mp hei
  obtain ⟨hlt, hxeval⟩ := List.getElem?_eq_some.mp hxe
  by_cases hund : ei + 1 < lines.length ∧ isUnderlineLine (lines.getD (ei + 1) []) = true
  · have hbs : body_start lines ei = ei + 2 := by unfold body_start; rw [if_pos hund]
    have hx1lt : ei + 1 < lines.length := hund.1
    have hgetD : lines.getD (ei + 1) [] = lines[ei + 1] := by
      rw [getD_eq_getElem?, List.getElem?_eq_getElem hx1lt]
      rfl
    have hundx : isUnderlineLine lines[ei + 1] = true := by
      rw [← hgetD]
      exact hund.2
    have hH : lines.take (ei + 2) = lines.take (ei + 1) ++ [lines[ei + 1]] := by
      rw [List.take_succ, List.getElem?_eq_getElem hx1lt]
      rfl
    have hrs_ne : pyRstrip lines[ei + 1] ≠ [] :=
      pyRstrip_ne_nil_of_pyStrip (isUnderline_strip_ne hundx)
    have hST : stripTrail (lines.take (ei + 2)) =
        lines.take (ei + 1) ++ [pyRstrip lines[ei + 1]] := by
      rw [hH, stripTrail_concat, if_neg hrs_ne]
    have hlenA : (lines.take (ei + 1)).length = ei + 1 := by
      rw [List.length_take]
      omega
    have hlenH : (stripTrail (lines.take (ei + 2))).length = ei + 2 := by
      rw [hST, List.length_append, hlenA]
      rfl
    have hLj : ∀ j, j < ei + 1 →
        (stripTrail (lines.take (ei + 2)) ++ [] :: R')[j]? = lines[j]? := by
      intro j hj
      rw [List.getElem?_append_left (by omega), hST,
        List.getElem?_append_left (by omega), List.getElem?_take_of_lt hj]
    have hLei1 : (stripTrail (lines.take (ei + 2)) ++ [] :: R')[ei + 1]? =
        some (pyRstrip lines[ei + 1]) := by
      rw [List.getElem?_append_left (by omega), hST,
        List.getElem?_append_right (by omega)]
      rw [hlenA]
      simp
    rw [hbs]
    refine ⟨?_, ?_, List.take_left' hlenH, List.drop_left' hlenH⟩
    · unfold entries_index
      rw [findIdx?_eq_some_iff_opt]
      refine ⟨⟨lines[ei], ?_, ?_⟩, ?_⟩
      · rw [hLj ei (by omega)]
        exact List.getElem?_eq_getElem hlt
      · rw [show lines[ei] = xe from by
          rw [List.getElem?_eq_getElem hlt, Option.some.injEq] at hxe
          exact hxe]
        exact hpxe
      · intro j hj x hx
        rw [hLj j (by omega), List.getElem?_eq_getElem (by omega), Option.some.injEq] at hx
        rw [← hx]
        exact hprev j hj _ (List.getElem?_eq_getElem (by omega))
    · unfold body_start
      rw [if_pos]
      constructor
      · rw [List.length_append, hlenH]
        simp
        omega
      · rw [getD_eq_getElem?, hLei1]
        rw [show (some (pyRstrip lines[ei + 1])).getD [] = pyRstrip lines[ei + 1] from rfl,
          isUnderlineLine_pyRstrip]
        exact hundx
  · have hbs : body_start lines ei = ei + 1 := by unfold body_start; rw [if_neg hund]
    have hH : lines.take (ei + 1) = lines.take ei ++ [lines[ei]] := by
      rw [List.take_succ, List.getElem?_eq_getElem hlt]
      rfl
    have hpx : (pyStrip lines[ei] == entriesStr) = true := by
      rw [show lines[ei] = xe from by
        rw [List.getElem?_eq_getElem hlt, Option.some.injEq] at hxe
        exact hxe]
      exact hpxe
    have hrs_ne : pyRstrip lines[ei] ≠ [] :=
      pyRstrip_ne_nil_of_pyStrip (entriesTest_strip_ne hpx)
    have hST : stripTrail (lines.take (ei + 1)) =
        lines.take ei ++ [pyRstrip lines[ei]] := by
      rw [hH, stripTrail_concat, if_neg hrs_ne]
    have hlenA : (lines.take ei).length = ei := by
      rw [List.length_take]
      omega
    have hlenH : (stripTrail (lines.take (ei + 1))).length = ei + 1 := by
      rw [hST, List.length_append, hlenA]
      rfl
    have hLj : ∀ j, j < ei →
        (stripTrail (lines.take (ei + 1)) ++ [] :: R')[j]? = lines[j]? := by
      intro j hj
      rw [List.getElem?_append_left (by omega), hST,
        List.getElem?_append_left (by omega), List.getElem?_take_of_lt hj]
    have hLei : (stripTrail (lines.take (ei + 1)) ++ [] :: R')[ei]? =
        some (pyRstrip lines[ei]) := by
      rw [List.getElem?_append_left (by omega), hST,
        List.getElem?_append_right (by omega)]
      rw [hlenA]
      simp
    have hLei1 : (stripTrail (lines.take (ei + 1)) ++ [] :: R')[ei + 1]? = some [] := by
      rw [List.getElem?_append_right (by omega), hlenH]
      simp
    rw [hbs]
    refine ⟨?_, ?_, List.take_left' hlenH, List.drop_left' hlenH⟩
    · unfold entries_index
      rw [findIdx?_eq_some_iff_opt]
      refine ⟨⟨pyRstrip lines[ei], hLei, ?_⟩, ?_⟩
      · rw [entriesTest_pyRstrip]
        exact hpx
      · intro j hj x hx
        rw [hLj j hj, List.getElem?_eq_getElem (by omega), Option.some.injEq] at hx
        rw [← hx]
        exact hprev j hj _ (List.getElem?_eq_getElem (by omega))
    · unfold body_start
      rw [if_neg]
      rintro ⟨-, hcond⟩
      rw [getD_eq_getElem?, hLei1] at hcond
      cases hcond

theorem docSorted_entry_ok (text : Str) (h2 : invalid_plans (docBlocks text) = []) :
    ∀ e ∈ docSorted text, ∃ b, GoodBlock b ∧
      (∀ l ∈ b, ∀ c ∈ l, isBreakChar c = false) ∧
      e.2.2 = pyRstrip (joinNL b) ∧ e.1 = parse_plan_timestamp (planOf b) ∧ e.1 ≠ none := by
  intro e he
  have hts := docSorted_ts_some h2 e he
  unfold docSorted at he
  rw [List.mem_insertionSort] at he
  unfold docEntries plan_entries at he
  rcases List.mem_map.mp he with ⟨⟨i, b⟩, hib, rfl⟩
  have hbmem : b ∈ docBlocks text := by
    rw [List.enum_eq_zip_range] at hib
    exact (List.of_mem_zip hib).2
  dsimp only [] at hts ⊢
  refine ⟨b, docBlocks_good text b hbmem, ?_, rfl, rfl, hts⟩
  intro l hl c hc
  have hbody : l ∈ docBodyLines text := by
    rcases mem_splitBlocksGo_sub _ [] b hbmem l hl with hx | hx
    · cases hx
    · exact hx
  have hlines : l ∈ splitlines text := List.mem_of_mem_drop hbody
  exact mem_splitlines_no_break l hlines c hc

theorem withSeps_length (P : List (List Str)) : (withSeps P).length = P.length := by
  induction P with
  | nil => rfl
  | cons p P ih =>
    rcases P with _ | ⟨q, Ps⟩
    · rfl
    · rw [withSeps_cons (List.cons_ne_nil _ _)]
      simp [ih]

theorem sortKey_none {e : Entry} (h : e.1 = none) : sortKey e = (0, 0, 0, 0, e.2.1) := by
  unfold sortKey
  rw [h]

theorem entryLE_reindex {τ τ' : Option (Int × Int × Int × Int)} {p q i j : Nat}
    {u v u' v' : Str}
    (hle : entryLE (τ, p, u) (τ', q, v)) (hij : i < j) :
    entryLE (τ, i, u') (τ', j, v') := by
  unfold entryLE at hle ⊢
  rcases τ with _ | ⟨a1, a2, a3, a4⟩ <;> rcases τ' with _ | ⟨b1, b2, b3, b4⟩
  · rw [@sortKey_none (none, p, u) rfl, @sortKey_none (none, q, v) rfl] at hle
    rw [@sortKey_none (none, i, u') rfl, @sortKey_none (none, j, v') rfl]
    unfold keyLE at hle ⊢
    dsimp only [] at hle ⊢
    omega
  · rw [@sortKey_none (none, p, u) rfl,
      @sortKey_some (some (b1, b2, b3, b4), q, v) (b1, b2, b3, b4) rfl] at hle
    rw [@sortKey_none (none, i, u') rfl,
      @sortKey_some (some (b1, b2, b3, b4), j, v') (b1, b2, b3, b4) rfl]
    unfold keyLE at hle ⊢
    dsimp only [] at hle ⊢
    omega
  · rw [@sortKey_some (some (a1, a2, a3, a4), p, u) (a1, a2, a3, a4) rfl,
      @sortKey_none (none, q, v) rfl] at hle
    rw [@sortKey_some (some (a1, a2, a3, a4), i, u') (a1, a2, a3, a4) rfl,
      @sortKey_none (none, j, v') rfl]
    unfold keyLE at hle ⊢
    dsimp only [] at hle ⊢
    omega
  · rw [@sortKey_some (some (a1, a2, a3, a4), p, u) (a1, a2, a3, a4) rfl,
      @sortKey_some (some (b1, b2, b3, b4), q, v) (b1, b2, b3, b4) rfl] at hle
    rw [@sortKey_some (some (a1, a2, a3, a4), i, u') (a1, a2, a3, a4) rfl,
      @sortKey_some (some (b1, b2, b3, b4), j, v') (b1, b2, b3, b4) rfl]
    unfold keyLE at hle ⊢
    dsimp only [] at hle ⊢
    omega

theorem body_start_pos (lines : List Str) (ei : Nat) : 0 < body_start lines ei := by
  unfold body_start
  split <;> omega

theorem stripTrail_header_len {lines : List Str} {ei : Nat}
    (hei : entries_index lines = some ei) :
    (stripTrail (lines.take (body_start lines ei))).length = body_start lines ei := by
  obtain ⟨-, -, h3, -⟩ := second_run_header lines ei [] hei
  have hlen := congrArg List.length h3
  rw [List.length_take, List.length_append, List.length_cons] at hlen
  omega

theorem stripTrail_header_ne {lines : List Str} {ei : Nat}
    (hei : entries_index lines = some ei) :
    stripTrail (lines.take (body_start lines ei)) ≠ [] := by
  intro hc
  have := stripTrail_header_len hei
  rw [hc] at this
  have := body_start_pos lines ei
  simp at *
  omega

theorem plan_entries_map_text (blocks : List (List Str)) :
    (plan_entries blocks).map (fun e => e.2.2) =
      blocks.map (fun b => pyRstrip (joinNL b)) := by
  unfold plan_entries
  rw [List.map_map,
    show ((fun e : Entry => e.2.2) ∘
      (fun p : Nat × List Str =>
        ((parse_plan_timestamp (planOf p.2), p.1, pyRstrip (joinNL p.2)) : Entry)))
      = (fun b => pyRstrip (joinNL b)) ∘ Prod.snd from rfl,
    ← List.map_map, List.enum_map_snd]

theorem second_run_eq {text : Str} {ei : Nat}
    (hei : entries_index (splitlines text) = some ei)
    (h2 : invalid_plans (docBlocks text) = []) :
    entries_index (splitlines (docNewText text)) = some ei ∧
    invalid_plans (docBlocks (docNewText text)) = [] ∧
    docNewText (docNewText text) = docNewText text := by
  obtain ⟨P, hP1, hP2, hPlen, hPjoin, hPrs, hPts⟩ :=
    entries_roundtrip (docSorted text) (docSorted_entry_ok text h2)
  have hbs0 : docBodyStart text = body_start (splitlines text) ei := by
    unfold docBodyStart
    rw [hei]
  have hHne : stripTrail ((splitlines text).take (body_start (splitlines text) ei)) ≠ [] :=
    stripTrail_header_ne hei
  have hHnb : ∀ l ∈ stripTrail ((splitlines text).take (body_start (splitlines text) ei)),
      ∀ c ∈ l, isBreakChar c = false := by
    intro l hl c hc
    obtain ⟨l', hl', hor⟩ := mem_stripTrail hl
    have hl'mem : l' ∈ splitlines text := List.mem_of_mem_take hl'
    rcases hor with h1 | h1
    · exact mem_splitlines_no_break l' hl'mem c (h1 ▸ hc)
    · exact mem_splitlines_no_break l' hl'mem c (mem_of_mem_pyRstrip (h1 ▸ hc))
  have hHtext : docHeaderText text =
      joinNL (stripTrail ((splitlines text).take (body_start (splitlines text) ei))) := by
    unfold docHeaderText docHeaderLines
    rw [hbs0, pyRstrip_joinNL]
  rcases P with _ | ⟨p0, P'⟩
  · -- no blocks: the rewritten body is two blank lines
    have hesnil : docSorted text = [] := List.length_eq_zero.mp (by rw [← hPlen]; rfl)
    have hOB : docOrderedBlocks text = [] := by
      rw [show docOrderedBlocks text = (docSorted text).map (fun e => e.2.2) from rfl,
        hesnil]
      rfl
    have hNTeq : docNewText text =
        joinNL (stripTrail ((splitlines text).take (body_start (splitlines text) ei))
          ++ [[], []]) ++ ['\n'] := by
      rw [joinNL_append hHne (by simp), ← hHtext,
        show joinNL [([] : Str), []] = ['\n'] from rfl]
      unfold docNewText
      rw [hOB, show joinBlankSep [] = ([] : Str) from rfl]
      simp
    have hL : splitlines (docNewText text) =
        stripTrail ((splitlines text).take (body_start (splitlines text) ei))
          ++ [[], []] := by
      rw [hNTeq]
      apply splitlines_joinNL_term
      · simp
      · intro l hl c hc
        rcases List.mem_append.mp hl with hx | hx
        · exact hHnb l hx c hc
        · rcases List.mem_cons.mp hx with rfl | hx
          · cases hc
          · rcases List.mem_cons.mp hx with rfl | hx
            · cases hc
            · cases hx
    obtain ⟨hei2, hbs2, htake2, hdrop2⟩ := second_run_header (splitlines text) ei [[]] hei
    have hbs' : docBodyStart (docNewText text) = body_start (splitlines text) ei := by
      unfold docBodyStart
      rw [hL, hei2]
      exact hbs2
    have hblocks2 : docBlocks (docNewText text) = [] := by
      unfold docBlocks docBodyLines
      rw [hL, hbs', hdrop2]
      rfl
    have hinv2 : invalid_plans (docBlocks (docNewText text)) = [] := by
      rw [hblocks2]
      rfl
    have hH2 : docHeaderText (docNewText text) = docHeaderText text := by
      unfold docHeaderText docHeaderLines
      rw [hL, hbs', htake2, ← pyRstrip_joinNL, pyRstrip_idem, hbs0]
    have hOB2 : docOrderedBlocks (docNewText text) = [] := by
      rw [show docOrderedBlocks (docNewText text) =
        (List.insertionSort entryLE (plan_entries (docBlocks (docNewText text)))).map
          (fun e => e.2.2) from rfl, hblocks2]
      rfl
    have hNT2 : docNewText (docNewText text) = docNewText text := by
      rw [show docNewText (docNewText text) = docHeaderText (docNewText text) ++
          '\n' :: '\n' :: (joinBlankSep (docOrderedBlocks (docNewText text)) ++ ['\n'])
          from rfl, hH2, hOB2, ← hOB]
      rfl
    exact ⟨by rw [hL]; exact hei2, hinv2, hNT2⟩
  · -- at least one block
    have hp0ne : p0 ≠ [] := (hP1 p0 (List.mem_cons_self _ _)).1
    have hsepne : sepLines (p0 :: P') ≠ [] := sepLines_ne_nil P' hp0ne
    have hallne : ∀ p ∈ p0 :: P', p ≠ [] := fun p hp => (hP1 p hp).1
    have hNTeq : docNewText text =
        joinNL (stripTrail ((splitlines text).take (body_start (splitlines text) ei))
          ++ [] :: sepLines (p0 :: P')) ++ ['\n'] := by
      rw [joinNL_append hHne (List.cons_ne_nil _ _), joinNL_cons hsepne,
        joinNL_sepLines hallne, ← hHtext]
      unfold docNewText docOrderedBlocks
      rw [hPjoin]
      simp
    have hL : splitlines (docNewText text) =
        stripTrail ((splitlines text).take (body_start (splitlines text) ei))
          ++ [] :: sepLines (p0 :: P') := by
      rw [hNTeq]
      apply splitlines_joinNL_term
      · simp
      · intro l hl c hc
        rcases List.mem_append.mp hl with hx | hx
        · exact hHnb l hx c hc
        · rcases List.mem_cons.mp hx with rfl | hx
          · cases hc
          · rcases mem_sepLines hx with rfl | ⟨p, hp, hlp⟩
            · cases hc
            · exact hP2 p hp l hlp c hc
    obtain ⟨hei2, hbs2, htake2, hdrop2⟩ :=
      second_run_header (splitlines text) ei (sepLines (p0 :: P')) hei
    have hbs' : docBodyStart (docNewText text) = body_start (splitlines text) ei := by
      unfold docBodyStart
      rw [hL, hei2]
      exact hbs2
    have hblocks2 : docBlocks (docNewText text) = withSeps (p0 :: P') := by
      unfold docBlocks docBodyLines
      rw [hL, hbs', hdrop2, splitBlocksGo_skip _ marker_not_prefix_nil,
        splitBlocksGo_sepLines hP1]
    have hWlen : (withSeps (p0 :: P')).length = (docSorted text).length := by
      rw [withSeps_length]
      exact hPlen
    have hts_get : ∀ i, i < (withSeps (p0 :: P')).length →
        ∀ hiS : i < (docSorted text).length,
        parse_plan_timestamp (planOf ((withSeps (p0 :: P'))[i])) =
          ((docSorted text)[i]).1 := by
      intro i hiW hiS
      have h1 := congrArg (fun l => l[i]?) hPts
      simp only [List.getElem?_map] at h1
      rw [List.getElem?_eq_getElem hiW, List.getElem?_eq_getElem hiS] at h1
      simpa using h1
    have hsorted2 : List.Sorted entryLE (plan_entries (withSeps (p0 :: P'))) := by
      show List.Pairwise entryLE (plan_entries (withSeps (p0 :: P')))
      rw [List.pairwise_iff_getElem]
      intro i j hi hj hij
      have hiW : i < (withSeps (p0 :: P')).length := by
        simpa [length_plan_entries] using hi
      have hjW : j < (withSeps (p0 :: P')).length := by
        simpa [length_plan_entries] using hj
      have hiS : i < (docSorted text).length := by rw [← hWlen]; exact hiW
      have hjS : j < (docSorted text).length := by rw [← hWlen]; exact hjW
      rw [plan_entries_getElem _ i hi hiW, plan_entries_getElem _ j hj hjW]
      have hle : entryLE ((docSorted text)[i]) ((docSorted text)[j]) := by
        have hs : List.Pairwise entryLE (docSorted text) := docSorted_sorted text
        rw [List.pairwise_iff_getElem] at hs
        exact hs i j hiS hjS hij
      rw [hts_get i hiW hiS, hts_get j hjW hjS]
      exact entryLE_reindex hle hij
    have hinv2 : invalid_plans (docBlocks (docNewText text)) = [] := by
      rw [hblocks2]
      unfold invalid_plans
      rw [List.filter_eq_nil_iff]
      intro x hx
      rw [List.mem_map] at hx
      obtain ⟨b, hb, rfl⟩ := hx
      rw [List.mem_iff_getElem] at hb
      obtain ⟨i, hiW, rfl⟩ := hb
      have hiS : i < (docSorted text).length := by rw [← hWlen]; exact hiW
      intro hcontra
      simp only [Option.isNone_iff_eq_none] at hcontra
      rw [hts_get i hiW hiS] at hcontra
      exact docSorted_ts_some h2 ((docSorted text)[i]) (List.getElem_mem hiS) hcontra
    have hH2 : docHeaderText (docNewText text) = docHeaderText text := by
      unfold docHeaderText docHeaderLines
      rw [hL, hbs', htake2, ← pyRstrip_joinNL, pyRstrip_idem, hbs0]
    have hOB2 : docOrderedBlocks (docNewText text) = docOrderedBlocks text := by
      rw [show docOrderedBlocks (docNewText text) =
          (List.insertionSort entryLE (plan_entries (docBlocks (docNewText text)))).map
            (fun e => e.2.2) from rfl,
        hblocks2, List.Sorted.insertionSort_eq hsorted2, plan_entries_map_text, hPrs]
      rfl
    have hNT2 : docNewText (docNewText text) = docNewText text := by
      rw [show docNewText (docNewText text) = docHeaderText (docNewText text) ++
          '\n' :: '\n' :: (joinBlankSep (docOrderedBlocks (docNewText text)) ++ ['\n'])
          from rfl, hH2, hOB2]
      rfl
    exact ⟨by rw [hL]; exact hei2, hinv2, hNT2⟩

/-- C8: the reorder transform is idempotent — whenever a first run
succeeds, running the script again on the text it wrote succeeds,
writes the identical text back, and prints the "no changes" console
message. -/
theorem C8_idempotent (text : Str) (h : (reorder text).isOk = true) :
    reorder (docNewText text) = Except.ok ⟨docNewText text, noChangesMsg⟩ := by
  obtain ⟨⟨ei, hei⟩, h2⟩ := of_reorder_isOk h
  obtain ⟨hei2, hinv2, hNT2⟩ := second_run_eq hei h2
  rw [reorder_ok_of hei2 hinv2, hNT2]
  rw [show docConsole (docNewText text) = if docNewText text = docNewText (docNewText text)
      then noChangesMsg else movedMsg (docMovedCount (docNewText text)) from rfl,
    if_pos hNT2.symm]

/-- Witness for C8 at a concrete three-block document. -/
theorem C8_idempotent_witness :
    (reorder wdoc1).isOk = true ∧
      reorder (docNewText wdoc1) = Except.ok ⟨docNewText wdoc1, noChangesMsg⟩ :=
  ⟨by decide, C8_idempotent wdoc1 (by decide)⟩
